import Mathlib

/-!
Verification of the compaction-ratio benchmark analysis pipeline
(`benchmark_results/scripts/analyze_compaction_study.py`).

The development shallowly embeds the core pipeline:
  * the line parser (`processLine`): regex recognition of ratio-announcement
    lines and benchmark-result lines, with Python `float()` failures modelled
    as `Except.error`;
  * the record aggregator (nested insertion-ordered association lists,
    mirroring Python dicts);
  * the name consolidator (`consolidateTp`, `consolidateLat`);
  * the summary reducer (`bestFor`, `summaryFor`, `printSummary`).

Numbers are modelled as rationals; machine floats only ever hold values
produced by parsing decimal text and scaling by 1000, which the rational
model reflects exactly.
-/

namespace CompactionStudy

/-! ### Character classes (ASCII reading of Python's regex classes) -/

/-- Python regex `\s` (ASCII whitespace). -/
def isWs (c : Char) : Bool :=
  c = ' ' || c = '\t' || c = '\n' || c = '\r' || c = '\x0b' || c = '\x0c'

/-- Python regex class `[\d.]`: a digit or a literal dot. -/
def isNumCh (c : Char) : Bool := c.isDigit || c = '.'

/-- Python regex `\w` (ASCII word character). -/
def isWordCh (c : Char) : Bool := c.isAlphanum || c = '_'

/-! ### Matching primitives

`re.search` with the patterns used by the script is equivalent to trying,
at each start position from the left, a deterministic sequence of literal
matches and maximal character-class runs: every quantified class in the
patterns is followed by a character it cannot match, so the greedy run is
the only candidate and no backtracking can occur. -/

/-- Match a literal, returning the remainder of the input. -/
def dropLit : List Char → List Char → Option (List Char)
  | [], s => some s
  | _ :: _, [] => none
  | c :: cs, x :: xs => if x = c then dropLit cs xs else none

/-- Maximal nonempty run of characters satisfying `p` (regex `C+` for a
class `C` whose follower cannot be in `C`). -/
def take1While (p : Char → Bool) (s : List Char) : Option (List Char × List Char) :=
  if s.takeWhile p = [] then none else some (s.takeWhile p, s.dropWhile p)

/-- Leftmost-search driver: try the matcher at every start position. -/
def searchWith {α : Type} (m : List Char → Option α) : List Char → Option α
  | [] => m []
  | c :: t =>
    match m (c :: t) with
    | some a => some a
    | none => searchWith m t

/-! ### Numeric text

`digitsVal` is Python `int` on a digit string; `parseFloat` is Python
`float` restricted to the strings the capture groups can produce
(nonempty strings over digits and dots): it succeeds exactly when there
is at least one digit and at most one dot. -/

def digitsVal (s : List Char) : ℕ :=
  s.foldl (fun a c => 10 * a + (c.toNat - 48)) 0

def parseFloat (s : List Char) : Option ℚ :=
  if (∀ c ∈ s, isNumCh c = true) ∧ (∃ c ∈ s, c.isDigit = true) ∧ s.count '.' ≤ 1 then
    match s.dropWhile Char.isDigit with
    | [] => some ((digitsVal (s.takeWhile Char.isDigit) : ℕ) : ℚ)
    | _ :: fp =>
      some (((digitsVal (s.takeWhile Char.isDigit) : ℕ) : ℚ)
        + ((digitsVal fp : ℕ) : ℚ) / ((10 : ℚ) ^ fp.length))
  else none

/-! ### The three patterns of the script -/

/-- Literal part of `r'Testing Compaction Ratio:\s+([\d.]+)'`. -/
def ratioLit : List Char := "Testing Compaction Ratio:".data

/-- Attempt the ratio-announcement pattern at the start of `s`, returning
the text captured by `([\d.]+)`. -/
def matchRatioAt (s : List Char) : Option (List Char) :=
  match dropLit ratioLit s with
  | none => none
  | some s1 =>
    match take1While isWs s1 with
    | none => none
    | some (_, s2) =>
      match take1While isNumCh s2 with
      | none => none
      | some (cap, _) => some cap

/-- Fields extracted by the benchmark-result pattern
`(BM_\w+)/(\d+)\s+[\d.]+\s+ns\s+[\d.]+\s+ns\s+\d+\s+items_per_second=([\d.]+)([MK])/s`. -/
structure BMatch where
  name : List Char
  depth : ℕ
  tpCap : List Char
  unit : Char
deriving DecidableEq

/-- Skip over a maximal nonempty run of characters satisfying `p`. -/
def skipRun (p : Char → Bool) (s : List Char) : Option (List Char) :=
  match take1While p s with
  | none => none
  | some x => some x.2

/-- The middle section `\s+[\d.]+\s+ns\s+[\d.]+\s+ns\s+\d+\s+` of the
benchmark-result pattern: two "time" fields, an iteration count, and the
surrounding whitespace. -/
def benchMid (s : List Char) : Option (List Char) :=
  (skipRun isWs s).bind (fun a =>
  (skipRun isNumCh a).bind (fun b =>
  (skipRun isWs b).bind (fun c =>
  (dropLit "ns".data c).bind (fun d =>
  (skipRun isWs d).bind (fun e =>
  (skipRun isNumCh e).bind (fun f =>
  (skipRun isWs f).bind (fun g =>
  (dropLit "ns".data g).bind (fun h =>
  (skipRun isWs h).bind (fun i =>
  (skipRun Char.isDigit i).bind (fun j =>
  skipRun isWs j))))))))))

/-- The trailing section `items_per_second=([\d.]+)([MK])/s` of the
benchmark-result pattern, returning the captured number and unit. -/
def benchEnd (s : List Char) : Option (List Char × Char) :=
  (dropLit "items_per_second=".data s).bind (fun s1 =>
  (take1While isNumCh s1).bind (fun cap =>
  match cap.2 with
  | [] => none
  | u :: s2 =>
    if u = 'M' ∨ u = 'K' then
      (dropLit "/s".data s2).map (fun _ => (cap.1, u))
    else none))

/-- Attempt the benchmark-result pattern at the start of `s`. -/
def matchBenchAt (s : List Char) : Option BMatch :=
  (dropLit "BM_".data s).bind (fun s1 =>
  (take1While isWordCh s1).bind (fun w =>
  (dropLit "/".data w.2).bind (fun s2 =>
  (take1While Char.isDigit s2).bind (fun ds =>
  (benchMid ds.2).bind (fun s3 =>
  (benchEnd s3).map (fun cu =>
  BMatch.mk ("BM_".data ++ w.1) (digitsVal ds.1) cu.1 cu.2))))))

/-- Attempt a percentile pattern `lbl=([\d.]+)k?` at the start of `s`;
the boolean records whether the whole match (group 0) contains `k`. -/
def matchPctAt (lbl : List Char) (s : List Char) : Option (List Char × Bool) :=
  (dropLit (lbl ++ "=".data) s).bind (fun s1 =>
  (take1While isNumCh s1).map (fun cap =>
  (cap.1, match cap.2 with | 'k' :: _ => true | _ => false)))

def searchRatio (line : List Char) : Option (List Char) :=
  searchWith matchRatioAt line

def searchBench (line : List Char) : Option BMatch :=
  searchWith matchBenchAt line

def searchPct (lbl : List Char) (line : List Char) : Option (List Char × Bool) :=
  searchWith (matchPctAt lbl) line

/-! ### Insertion-ordered association lists

Python dicts preserve insertion order; updating an existing key keeps its
position, a fresh key is appended. The nested `defaultdict`s are modelled
by nested association lists with an "insert or update" operation. -/

def alFind {α β : Type} [DecidableEq α] : List (α × β) → α → Option β
  | [], _ => none
  | (k, v) :: t, k' => if k' = k then some v else alFind t k'

def alUpd {α β : Type} [DecidableEq α] : List (α × β) → α → β → List (α × β)
  | [], k, v => [(k, v)]
  | (k0, v0) :: t, k, v => if k0 = k then (k0, v) :: t else (k0, v0) :: alUpd t k v

/-- `throughput_data`: raw name → ratio → depth → throughput. -/
abbrev TpModel := List (List Char × List (ℚ × List (ℕ × ℚ)))

/-- `latency_data`: raw name → ratio → depth → percentile label → value. -/
abbrev LatModel := List (List Char × List (ℚ × List (ℕ × List (List Char × ℚ))))

instance : DecidableEq (List Char × List (ℚ × List (ℕ × ℚ))) := inferInstance

instance : DecidableEq TpModel := inferInstance

instance : DecidableEq (ℕ × List (List Char × ℚ)) := inferInstance

instance : DecidableEq (ℚ × List (ℕ × List (List Char × ℚ))) := inferInstance

instance : DecidableEq (List Char × List (ℚ × List (ℕ × List (List Char × ℚ)))) :=
  inferInstance

instance : DecidableEq LatModel := inferInstance

instance {ε α : Type} [DecidableEq ε] [DecidableEq α] : DecidableEq (Except ε α)
  | Except.error e, Except.error f =>
    if h : e = f then Decidable.isTrue (by rw [h])
    else Decidable.isFalse (fun hh => h (by injection hh))
  | Except.error e, Except.ok b => Decidable.isFalse (fun hh => Except.noConfusion hh)
  | Except.ok a, Except.error f => Decidable.isFalse (fun hh => Except.noConfusion hh)
  | Except.ok a, Except.ok b =>
    if h : a = b then Decidable.isTrue (by rw [h])
    else Decidable.isFalse (fun hh => h (by injection hh))

def tpInsert (m : TpModel) (n : List Char) (r : ℚ) (d : ℕ) (v : ℚ) : TpModel :=
  let mr := (alFind m n).getD []
  let md := (alFind mr r).getD []
  alUpd m n (alUpd mr r (alUpd md d v))

def tpLookup (m : TpModel) (n : List Char) (r : ℚ) (d : ℕ) : Option ℚ :=
  (alFind m n).bind (fun mr => (alFind mr r).bind (fun md => alFind md d))

def latInsert (m : LatModel) (n : List Char) (r : ℚ) (d : ℕ) (lbl : List Char) (v : ℚ) :
    LatModel :=
  let mr := (alFind m n).getD []
  let md := (alFind mr r).getD []
  let mp := (alFind md d).getD []
  alUpd m n (alUpd mr r (alUpd md d (alUpd mp lbl v)))

def latLookup (m : LatModel) (n : List Char) (r : ℚ) (d : ℕ) (lbl : List Char) : Option ℚ :=
  (alFind m n).bind (fun mr => (alFind mr r).bind (fun md =>
    (alFind md d).bind (fun mp => alFind mp lbl)))

/-! ### The parsing loop -/

/-- Parser state: the ambient ratio plus the two accumulated models. -/
structure PState where
  currentRatio : Option ℚ
  tp : TpModel
  lat : LatModel
deriving DecidableEq

def initState : PState := ⟨none, [], []⟩

def pctLabels : List (List Char) := ["p50".data, "p99".data, "p999".data]

/-- One percentile block of the parser: search the line for `lbl=…`;
a malformed captured number is a Python `float()` `ValueError`. -/
def pctStep (line : List Char) (n : List Char) (r : ℚ) (d : ℕ) (lat : LatModel)
    (lbl : List Char) : Except Unit LatModel :=
  match searchPct lbl line with
  | none => Except.ok lat
  | some (cap, hk) =>
    match parseFloat cap with
    | none => Except.error ()
    | some w => Except.ok (latInsert lat n r d lbl (if hk then w * 1000 else w))

/-- The sequence of percentile blocks (`p50`, then `p99`, then `p999`),
stopping at the first raised error. -/
def pctFold (line : List Char) (n : List Char) (r : ℚ) (d : ℕ) (lat : LatModel) :
    List (List Char) → Except Unit LatModel
  | [] => Except.ok lat
  | lbl :: rest =>
    match pctStep line n r d lat lbl with
    | Except.error e => Except.error e
    | Except.ok lat1 => pctFold line n r d lat1 rest

/-- The body of the `for line in f` loop of `parse_benchmark_results`. -/
def processLine (st : PState) (line : List Char) : Except Unit PState :=
  match searchRatio line with
  | some cap =>
    match parseFloat cap with
    | none => Except.error ()
    | some r => Except.ok ⟨some r, st.tp, st.lat⟩
  | none =>
    match st.currentRatio with
    | none => Except.ok st
    | some r =>
      match searchBench line with
      | none => Except.ok st
      | some b =>
        match parseFloat b.tpCap with
        | none => Except.error ()
        | some q =>
          match pctFold line b.name r b.depth st.lat pctLabels with
          | Except.error e => Except.error e
          | Except.ok lat' =>
            Except.ok ⟨some r, tpInsert st.tp b.name r b.depth
              (if b.unit = 'K' then q / 1000 else q), lat'⟩

/-- The `for line in f` loop: fold `processLine` over the input lines,
propagating a raised exception. -/
def runLines (st : PState) : List (List Char) → Except Unit PState
  | [] => Except.ok st
  | l :: rest =>
    match processLine st l with
    | Except.error e => Except.error e
    | Except.ok st1 => runLines st1 rest

/-- `parse_benchmark_results` over a list of input lines. -/
def parseLines (lines : List (List Char)) : Except Unit PState :=
  runLines initState lines

/-! ### Name consolidation (`consolidate_benchmarks`) -/

def nmNoMatch : List Char := "BM_AddOrder_No_Match".data
def nmAddLat : List Char := "BM_AddOrder_Latency".data
def nmRemove : List Char := "BM_RemoveOrder_VaryDepth".data
def nmMixed : List Char := "BM_MixedWorkload".data
def cnAddOrder : List Char := "Add Order".data
def cnRemove : List Char := "Remove Order".data
def cnMixed : List Char := "Mixed Workload".data

/-- `name_mapping.get(benchmark_name, benchmark_name)`. -/
def nameMap (n : List Char) : List Char :=
  if n = nmNoMatch then cnAddOrder
  else if n = nmAddLat then cnAddOrder
  else if n = nmRemove then cnRemove
  else if n = nmMixed then cnMixed
  else n

def insDepths (acc : TpModel) (cn : List Char) (r : ℚ) (md : List (ℕ × ℚ)) : TpModel :=
  md.foldl (fun a e => tpInsert a cn r e.1 e.2) acc

def insRatios (acc : TpModel) (cn : List Char) (rs : List (ℚ × List (ℕ × ℚ))) : TpModel :=
  rs.foldl (fun a p => insDepths a cn p.1 p.2) acc

/-- One step of throughput consolidation. `flag` is the loop-invariant test
`'BM_AddOrder_No_Match' in throughput_data`. -/
def conStep (flag : Bool) (acc : TpModel) (p : List Char × List (ℚ × List (ℕ × ℚ))) :
    TpModel :=
  if p.1 = nmAddLat ∧ flag = true then acc else insRatios acc (nameMap p.1) p.2

/-- Throughput consolidation: `BM_AddOrder_Latency` is skipped at source
level whenever `BM_AddOrder_No_Match` is a key of the input model. -/
def consolidateTp (tp : TpModel) : TpModel :=
  tp.foldl (conStep (alFind tp nmNoMatch).isSome) []

def insPcts (acc : LatModel) (cn : List Char) (r : ℚ) (d : ℕ)
    (mp : List (List Char × ℚ)) : LatModel :=
  mp.foldl (fun a e => latInsert a cn r d e.1 e.2) acc

def insLatDepths (acc : LatModel) (cn : List Char) (r : ℚ)
    (md : List (ℕ × List (List Char × ℚ))) : LatModel :=
  md.foldl (fun a e => insPcts a cn r e.1 e.2) acc

def insLatRatios (acc : LatModel) (cn : List Char)
    (rs : List (ℚ × List (ℕ × List (List Char × ℚ)))) : LatModel :=
  rs.foldl (fun a p => insLatDepths a cn p.1 p.2) acc

/-- Latency consolidation: all sources merged unconditionally. -/
def consolidateLat (lat : LatModel) : LatModel :=
  lat.foldl (fun acc p => insLatRatios acc (nameMap p.1) p.2) []

/-! ### Summary reduction (`print_summary`) -/

def insOrd (a : ℕ) : List ℕ → List ℕ
  | [] => [a]
  | b :: t => if a ≤ b then a :: b :: t else b :: insOrd a t

def sortAsc (l : List ℕ) : List ℕ := l.foldr insOrd []

/-- `sorted(set(depth for ratio_data in ratios.values() for depth in ratio_data.keys()))`. -/
def allDepths (rs : List (ℚ × List (ℕ × ℚ))) : List ℕ :=
  sortAsc ((rs.map (fun p => p.2.map Prod.fst)).flatten.dedup)

/-- The inner loop of `print_summary`: running best ratio and throughput,
starting from `best_ratio = None`, `best_throughput = 0`, taking a new
`(ratio, value)` only on strict improvement. -/
def bestFor (rs : List (ℚ × List (ℕ × ℚ))) (d : ℕ) : Option ℚ × ℚ :=
  rs.foldl (fun b p =>
    match alFind p.2 d with
    | none => b
    | some v => if b.2 < v then (some p.1, v) else b) (none, 0)

/-- The per-depth loop of `print_summary`: emit one
`(depth, best_ratio, best_throughput)` triple per depth in order;
formatting `best_ratio = None` with `:.2f` is a Python `TypeError`,
modelled as `Except.error` (which aborts the loop, as in Python). -/
def sumDepths (rs : List (ℚ × List (ℕ × ℚ))) : List ℕ → Except Unit (List (ℕ × ℚ × ℚ))
  | [] => Except.ok []
  | d :: ds =>
    match bestFor rs d with
    | (some r, t) =>
      match sumDepths rs ds with
      | Except.error e => Except.error e
      | Except.ok l => Except.ok ((d, r, t) :: l)
    | (none, _) => Except.error ()

/-- Per-benchmark summary: the depth loop over the sorted depth set. -/
def summaryFor (rs : List (ℚ × List (ℕ × ℚ))) : Except Unit (List (ℕ × ℚ × ℚ)) :=
  sumDepths rs (allDepths rs)

/-- `print_summary` over the whole model. -/
def printSummary : TpModel → Except Unit (List (List Char × List (ℕ × ℚ × ℚ)))
  | [] => Except.ok []
  | p :: t =>
    match summaryFor p.2 with
    | Except.error e => Except.error e
    | Except.ok l =>
      match printSummary t with
      | Except.error e => Except.error e
      | Except.ok rest => Except.ok ((p.1, l) :: rest)

/-! ### Small helpers used in specifications -/

/-- Left-biased choice on options (`a` if present, else `b`). -/
def orO {α : Type} (a b : Option α) : Option α :=
  match a with
  | some v => some v
  | none => b

/-- Lookup in one benchmark's ratio table. -/
def lookup2 (rs : List (ℚ × List (ℕ × ℚ))) (r : ℚ) (d : ℕ) : Option ℚ :=
  (alFind rs r).bind (fun md => alFind md d)

/-- A line fragment that instantiates the ratio-announcement pattern:
the literal label, a whitespace run, a number run, then the rest. -/
def ratioCore (ws num post : List Char) : List Char :=
  ratioLit ++ (ws ++ (num ++ post))

/-- A line fragment that instantiates the benchmark-result pattern. -/
def benchCore (w ds ws1 t1 ws2 ws3 t2 ws4 ws5 its ws6 cap : List Char) (u : Char)
    (post : List Char) : List Char :=
  "BM_".data ++ (w ++ ("/".data ++ (ds ++ (ws1 ++ (t1 ++ (ws2 ++ ("ns".data ++ (ws3 ++ (t2 ++ (ws4 ++ ("ns".data ++ (ws5 ++ (its ++ (ws6 ++ ("items_per_second=".data ++ (cap ++ (u :: ("/s".data ++ post))))))))))))))))))

/-! ### Predicates used in the specifications -/

/-- The head of the list, if any, fails `p` (so a maximal `p`-run cannot
extend into it). -/
def headFails (p : Char → Bool) : List Char → Bool
  | [] => true
  | c :: _ => !(p c)

/-- Every percentile capture on the line parses as a number (so the three
percentile blocks cannot raise). -/
def pctOK (line lbl : List Char) : Prop :=
  ∀ cap hk, searchPct lbl line = some (cap, hk) → ∃ w, parseFloat cap = some w

/-- Every latency key of the state is also a throughput key. -/
def LatSubTp (st : PState) : Prop :=
  ∀ n r d lbl v, latLookup st.lat n r d lbl = some v → ∃ w, tpLookup st.tp n r d = some w

/-- Every throughput value stored in the model is non-negative. -/
def TpNonneg (tp : TpModel) : Prop :=
  ∀ p ∈ tp, ∀ q ∈ p.2, ∀ e ∈ q.2, 0 ≤ e.2

/-- Every latency-percentile value stored in the model is non-negative. -/
def LatNonneg (lat : LatModel) : Prop :=
  ∀ p ∈ lat, ∀ q ∈ p.2, ∀ e ∈ q.2, ∀ x ∈ e.2, 0 ≤ x.2

/-- The keys of an association list are pairwise distinct (always true of a
Python dict). -/
def NDKeys {α β : Type} (m : List (α × β)) : Prop := (m.map Prod.fst).Nodup

/-- Well-formed ratio table of one benchmark: distinct ratio keys, and
distinct depth keys within each ratio. -/
def RsWF (rs : List (ℚ × List (ℕ × ℚ))) : Prop :=
  NDKeys rs ∧ ∀ p ∈ rs, NDKeys p.2

/-- Well-formed throughput model (what `defaultdict` nesting guarantees). -/
def TpWF (tp : TpModel) : Prop := NDKeys tp ∧ ∀ p ∈ tp, RsWF p.2

instance decNDKeys {α β : Type} [DecidableEq α] (m : List (α × β)) :
    Decidable (NDKeys m) := by
  unfold NDKeys
  infer_instance

instance decRsWF (rs : List (ℚ × List (ℕ × ℚ))) : Decidable (RsWF rs) := by
  unfold RsWF
  infer_instance

instance decTpWF (tp : TpModel) : Decidable (TpWF tp) := by
  unfold TpWF
  infer_instance

/-- `r` is the first ratio attaining the maximum recorded throughput `t`
at depth `d`: every earlier ratio's value at `d` is strictly below `t` and
every later one is at most `t`. -/
def FirstMax (rs : List (ℚ × List (ℕ × ℚ))) (d : ℕ) (r t : ℚ) : Prop :=
  ∃ pre md post, rs = pre ++ (r, md) :: post ∧ alFind md d = some t ∧ 0 < t ∧
    (∀ p ∈ pre, ∀ v, alFind p.2 d = some v → v < t) ∧
    (∀ p ∈ post, ∀ v, alFind p.2 d = some v → v ≤ t)

/-! ### Association-list lemmas -/

theorem alFind_alUpd {α β : Type} [DecidableEq α] (m : List (α × β)) (k : α) (v : β)
    (k' : α) : alFind (alUpd m k v) k' = if k' = k then some v else alFind m k' := by
  induction m with
  | nil =>
    by_cases h : k' = k <;> simp [alUpd, alFind, h]
  | cons hd t ih =>
    obtain ⟨k0, v0⟩ := hd
    simp only [alUpd]
    by_cases h0 : k0 = k
    · subst h0
      rw [if_pos rfl]
      by_cases h : k' = k0 <;> simp [alFind, h]
    · rw [if_neg h0]
      by_cases h : k' = k0
      · have hk : ¬ k' = k := by rw [h]; exact h0
        simp [alFind, h, hk, h0]
      · simp [alFind, h, ih]

theorem alFind_mem {α β : Type} [DecidableEq α] {m : List (α × β)} {k : α} {v : β}
    (h : alFind m k = some v) : (k, v) ∈ m := by
  induction m with
  | nil => simp [alFind] at h
  | cons hd t ih =>
    obtain ⟨k0, v0⟩ := hd
    by_cases h0 : k = k0
    · subst h0
      simp [alFind] at h
      simp [h]
    · simp [alFind, h0] at h
      exact List.mem_cons_of_mem _ (ih h)

theorem mem_alUpd {α β : Type} [DecidableEq α] {m : List (α × β)} {k : α} {v : β}
    {x : α × β} (h : x ∈ alUpd m k v) : x ∈ m ∨ x = (k, v) := by
  induction m with
  | nil => simp [alUpd] at h; simp [h]
  | cons hd t ih =>
    obtain ⟨k0, v0⟩ := hd
    by_cases h0 : k0 = k
    · subst h0
      simp [alUpd] at h
      rcases h with h | h
      · right; simp [h]
      · left; simp [h]
    · simp [alUpd, h0] at h
      rcases h with h | h
      · left; simp [h]
      · rcases ih h with h1 | h1
        · left; simp [h1]
        · right; exact h1

/-! ### Nested lookup/insert lemmas -/

theorem tpLookup_tpInsert (m : TpModel) (n : List Char) (r : ℚ) (d : ℕ) (v : ℚ)
    (n' : List Char) (r' : ℚ) (d' : ℕ) :
    tpLookup (tpInsert m n r d v) n' r' d' =
      if n' = n ∧ r' = r ∧ d' = d then some v else tpLookup m n' r' d' := by
  unfold tpInsert tpLookup
  rw [alFind_alUpd]
  by_cases hn : n' = n
  · subst hn
    rw [if_pos rfl]
    simp only [Option.some_bind]
    rw [alFind_alUpd]
    by_cases hr : r' = r
    · subst hr
      rw [if_pos rfl]
      simp only [Option.some_bind]
      rw [alFind_alUpd]
      by_cases hd : d' = d
      · simp [hd]
      · rw [if_neg hd]
        simp only [hd, and_false, if_false]
        cases hm : alFind m n' with
        | none => simp [alFind]
        | some mr =>
          cases hmr : alFind mr r' with
          | none => simp [alFind, hmr]
          | some md => simp [hmr]
    · rw [if_neg hr]
      simp only [hr, false_and, and_false, if_false]
      cases hm : alFind m n' with
      | none => simp [alFind]
      | some mr => simp
  · rw [if_neg hn]
    simp [hn]

theorem latLookup_latInsert (m : LatModel) (n : List Char) (r : ℚ) (d : ℕ)
    (lbl : List Char) (v : ℚ) (n' : List Char) (r' : ℚ) (d' : ℕ) (lbl' : List Char) :
    latLookup (latInsert m n r d lbl v) n' r' d' lbl' =
      if n' = n ∧ r' = r ∧ d' = d ∧ lbl' = lbl then some v
      else latLookup m n' r' d' lbl' := by
  unfold latInsert latLookup
  rw [alFind_alUpd]
  by_cases hn : n' = n
  · subst hn
    rw [if_pos rfl]
    simp only [Option.some_bind]
    rw [alFind_alUpd]
    by_cases hr : r' = r
    · subst hr
      rw [if_pos rfl]
      simp only [Option.some_bind]
      rw [alFind_alUpd]
      by_cases hd : d' = d
      · subst hd
        rw [if_pos rfl]
        simp only [Option.some_bind]
        rw [alFind_alUpd]
        by_cases hl : lbl' = lbl
        · simp [hl]
        · rw [if_neg hl]
          simp only [hl, and_false, if_false]
          cases hm : alFind m n' with
          | none => simp [alFind]
          | some mr =>
            cases hmr : alFind mr r' with
            | none => simp [alFind, hmr]
            | some md =>
              cases hmd : alFind md d' with
              | none => simp [alFind, hmr, hmd]
              | some mp => simp [hmr, hmd]
      · rw [if_neg hd]
        simp only [hd, false_and, and_false, if_false]
        cases hm : alFind m n' with
        | none => simp [alFind]
        | some mr =>
          cases hmr : alFind mr r' with
          | none => simp [alFind, hmr]
          | some md => simp [hmr]
    · rw [if_neg hr]
      simp only [hr, false_and, and_false, if_false]
      cases hm : alFind m n' with
      | none => simp [alFind]
      | some mr => simp
  · rw [if_neg hn]
    simp [hn]

/-! ### Numeric text lemmas -/

theorem parseFloat_nonneg {s : List Char} {q : ℚ} (h : parseFloat s = some q) : 0 ≤ q := by
  unfold parseFloat at h
  split at h
  · split at h
    · injection h with h
      subst h
      positivity
    · injection h with h
      subst h
      positivity
  · exact absurd h (by simp)

/-! ### Character-class facts -/

theorem ws_not_numCh {c : Char} (h : isWs c = true) : isNumCh c = false := by
  unfold isWs at h
  simp only [Bool.or_eq_true, decide_eq_true_eq] at h
  rcases h with ((((rfl | rfl) | rfl) | rfl) | rfl) | rfl <;> decide

theorem numCh_not_ws {c : Char} (h : isNumCh c = true) : isWs c = false := by
  cases hw : isWs c
  · rfl
  · rw [ws_not_numCh hw] at h
    exact absurd h (by simp)

theorem digit_not_ws {c : Char} (h : c.isDigit = true) : isWs c = false := by
  apply numCh_not_ws
  unfold isNumCh
  simp [h]

/-! ### Matching on structured text -/

theorem headFails_of_all_not {p : Char → Bool} {b : List Char}
    (h : ∀ c, b.head? = some c → p c = false) : headFails p b = true := by
  cases b with
  | nil => rfl
  | cons c t => simp [headFails, h c rfl]

theorem dropLit_append (lit s : List Char) : dropLit lit (lit ++ s) = some s := by
  induction lit with
  | nil => rfl
  | cons c t ih => simp [dropLit, ih]

theorem takeWhile_append_all {p : Char → Bool} {a b : List Char}
    (ha : ∀ c ∈ a, p c = true) (hb : headFails p b = true) :
    (a ++ b).takeWhile p = a ∧ (a ++ b).dropWhile p = b := by
  induction a with
  | nil =>
    cases b with
    | nil => simp
    | cons c t =>
      simp [headFails] at hb
      simp [List.takeWhile_cons, List.dropWhile_cons, hb]
  | cons c t ih =>
    have hc := ha c (by simp)
    have iht := ih (fun x hx => ha x (List.mem_cons_of_mem _ hx))
    simp [List.takeWhile_cons, List.dropWhile_cons, hc, iht.1, iht.2]

theorem take1While_append {p : Char → Bool} {a b : List Char} (hne : a ≠ [])
    (ha : ∀ c ∈ a, p c = true) (hb : headFails p b = true) :
    take1While p (a ++ b) = some (a, b) := by
  obtain ⟨h1, h2⟩ := takeWhile_append_all ha hb
  unfold take1While
  rw [h1, h2, if_neg hne]

theorem skipRun_append {p : Char → Bool} {a b : List Char} (hne : a ≠ [])
    (ha : ∀ c ∈ a, p c = true) (hb : headFails p b = true) :
    skipRun p (a ++ b) = some b := by
  unfold skipRun
  rw [take1While_append hne ha hb]

/-! ### Search lemmas -/

theorem searchWith_of_match {α : Type} {m : List Char → Option α} {l : List Char} {a : α}
    (h : m l = some a) : searchWith m l = some a := by
  cases l with
  | nil => simpa [searchWith] using h
  | cons c t => simp [searchWith, h]

theorem searchWith_append {α : Type} (m : List Char → Option α) (pre rest : List Char)
    (h : ∀ i, i < pre.length → m (List.drop i (pre ++ rest)) = none) :
    searchWith m (pre ++ rest) = searchWith m rest := by
  induction pre with
  | nil => rfl
  | cons c t ih =>
    have h0 := h 0 (by simp)
    simp only [List.drop_zero, List.cons_append] at h0
    show searchWith m (c :: (t ++ rest)) = searchWith m rest
    rw [searchWith, h0]
    exact ih (fun i hi => by
      have := h (i + 1) (by simpa using Nat.succ_lt_succ hi)
      simpa using this)

/-! ### Unfolding lemmas for `processLine` -/

theorem processLine_ratio {st : PState} {line cap : List Char} {q : ℚ}
    (h : searchRatio line = some cap) (hq : parseFloat cap = some q) :
    processLine st line = Except.ok ⟨some q, st.tp, st.lat⟩ := by
  simp [processLine, h, hq]

theorem processLine_ratio_err {st : PState} {line cap : List Char}
    (h : searchRatio line = some cap) (hq : parseFloat cap = none) :
    processLine st line = Except.error () := by
  simp [processLine, h, hq]

theorem processLine_skip {st : PState} {line : List Char}
    (h : searchRatio line = none) (h2 : st.currentRatio = none) :
    processLine st line = Except.ok st := by
  simp [processLine, h, h2]

theorem processLine_noBench {st : PState} {line : List Char} {r : ℚ}
    (h : searchRatio line = none) (h2 : st.currentRatio = some r)
    (hb : searchBench line = none) :
    processLine st line = Except.ok st := by
  simp [processLine, h, h2, hb]

/-! ### Step equations for the percentile blocks and the line loop -/

theorem pctStep_none {line lbl n : List Char} {r : ℚ} {d : ℕ} {lat : LatModel}
    (hs : searchPct lbl line = none) : pctStep line n r d lat lbl = Except.ok lat := by
  simp [pctStep, hs]

theorem pctStep_parsed {line lbl n cap : List Char} {hk : Bool} {r w : ℚ} {d : ℕ}
    {lat : LatModel} (hs : searchPct lbl line = some (cap, hk))
    (hw : parseFloat cap = some w) :
    pctStep line n r d lat lbl =
      Except.ok (latInsert lat n r d lbl (if hk then w * 1000 else w)) := by
  simp [pctStep, hs, hw]

theorem pctStep_bad {line lbl n cap : List Char} {hk : Bool} {r : ℚ} {d : ℕ}
    {lat : LatModel} (hs : searchPct lbl line = some (cap, hk))
    (hw : parseFloat cap = none) : pctStep line n r d lat lbl = Except.error () := by
  simp [pctStep, hs, hw]

theorem pctFold_cons_ok {line lbl n : List Char} {r : ℚ} {d : ℕ} {lat lat1 : LatModel}
    {rest : List (List Char)} (h : pctStep line n r d lat lbl = Except.ok lat1) :
    pctFold line n r d lat (lbl :: rest) = pctFold line n r d lat1 rest := by
  simp [pctFold, h]

theorem pctFold_cons_err {line lbl n : List Char} {r : ℚ} {d : ℕ} {lat : LatModel}
    {rest : List (List Char)} (h : pctStep line n r d lat lbl = Except.error ()) :
    pctFold line n r d lat (lbl :: rest) = Except.error () := by
  simp [pctFold, h]

theorem runLines_cons_ok {st st1 : PState} {l : List Char} {rest : List (List Char)}
    (h : processLine st l = Except.ok st1) :
    runLines st (l :: rest) = runLines st1 rest := by
  simp [runLines, h]

/-! ### Percentile fold lemmas -/

theorem pctFold_lookup {line n : List Char} {r : ℚ} {d : ℕ} :
    ∀ (labels : List (List Char)) (lat lat' : LatModel),
      pctFold line n r d lat labels = Except.ok lat' →
      labels.Nodup →
      ((∀ n' r' d' lbl', (¬ (n' = n ∧ r' = r ∧ d' = d)) ∨ lbl' ∉ labels →
          latLookup lat' n' r' d' lbl' = latLookup lat n' r' d' lbl')
       ∧ (∀ lbl ∈ labels, ∀ cap hk, searchPct lbl line = some (cap, hk) →
            ∃ w, parseFloat cap = some w ∧
              latLookup lat' n r d lbl = some (if hk then w * 1000 else w))) := by
  intro labels
  induction labels with
  | nil =>
    intro lat lat' hfold _
    simp [pctFold] at hfold
    subst hfold
    constructor
    · intro n' r' d' lbl' _; rfl
    · intro lbl hmem; simp at hmem
  | cons lbl0 rest ih =>
    intro lat lat' hfold hnd
    have hnd1 : rest.Nodup := hnd.of_cons
    have hnotmem : lbl0 ∉ rest := (List.nodup_cons.mp hnd).1
    cases hs : searchPct lbl0 line with
    | none =>
      rw [pctFold_cons_ok (pctStep_none hs)] at hfold
      obtain ⟨h1, h2⟩ := ih lat lat' hfold hnd1
      constructor
      · intro n' r' d' lbl' hc
        apply h1
        rcases hc with hc | hc
        · exact Or.inl hc
        · exact Or.inr (fun hm => hc (List.mem_cons_of_mem _ hm))
      · intro lbl hmem cap hk hsp
        rcases List.mem_cons.mp hmem with rfl | hmem
        · rw [hs] at hsp; exact absurd hsp (by simp)
        · exact h2 lbl hmem cap hk hsp
    | some caphk =>
      obtain ⟨cap0, hk0⟩ := caphk
      cases hw : parseFloat cap0 with
      | none =>
        rw [pctFold_cons_err (pctStep_bad hs hw)] at hfold
        exact absurd hfold (by simp)
      | some w0 =>
        rw [pctFold_cons_ok (pctStep_parsed hs hw)] at hfold
        obtain ⟨h1, h2⟩ := ih _ lat' hfold hnd1
        constructor
        · intro n' r' d' lbl' hc
          rcases hc with hc | hc
          · rw [h1 n' r' d' lbl' (Or.inl hc), latLookup_latInsert]
            have hcc : ¬ (n' = n ∧ r' = r ∧ d' = d ∧ lbl' = lbl0) := fun hh =>
              hc ⟨hh.1, hh.2.1, hh.2.2.1⟩
            rw [if_neg hcc]
          · have hl0 : lbl' ≠ lbl0 := fun hh => hc (hh ▸ List.mem_cons_self _ _)
            have hrest : lbl' ∉ rest := fun hm => hc (List.mem_cons_of_mem _ hm)
            rw [h1 n' r' d' lbl' (Or.inr hrest), latLookup_latInsert]
            have hcc : ¬ (n' = n ∧ r' = r ∧ d' = d ∧ lbl' = lbl0) := fun hh =>
              hl0 hh.2.2.2
            rw [if_neg hcc]
        · intro lbl hmem cap hk hsp
          rcases List.mem_cons.mp hmem with rfl | hmem
          · rw [hs] at hsp
            injection hsp with hsp
            injection hsp with hc1 hc2
            subst hc1; subst hc2
            refine ⟨w0, hw, ?_⟩
            rw [h1 n r d lbl (Or.inr hnotmem), latLookup_latInsert]
            simp
          · exact h2 lbl hmem cap hk hsp

theorem pctFold_mk {line n : List Char} {r : ℚ} {d : ℕ} :
    ∀ (labels : List (List Char)) (lat : LatModel),
      (∀ lbl ∈ labels, pctOK line lbl) →
      ∃ lat', pctFold line n r d lat labels = Except.ok lat' := by
  intro labels
  induction labels with
  | nil => intro lat _; exact ⟨lat, rfl⟩
  | cons lbl0 rest ih =>
    intro lat hok
    cases hs : searchPct lbl0 line with
    | none =>
      rw [pctFold_cons_ok (pctStep_none hs)]
      exact ih lat (fun lbl hm => hok lbl (List.mem_cons_of_mem _ hm))
    | some caphk =>
      obtain ⟨cap0, hk0⟩ := caphk
      obtain ⟨w0, hw0⟩ := hok lbl0 (List.mem_cons_self _ _) cap0 hk0 hs
      rw [pctFold_cons_ok (pctStep_parsed hs hw0)]
      exact ih _ (fun lbl hm => hok lbl (List.mem_cons_of_mem _ hm))

theorem pctFold_chain {line n : List Char} {r : ℚ} {d : ℕ} :
    ∀ (labels : List (List Char)) (lat lat' : LatModel),
      pctFold line n r d lat labels = Except.ok lat' →
      ∃ ws : List (List Char × ℚ),
        lat' = ws.foldl (fun a x => latInsert a n r d x.1 x.2) lat ∧
        ∀ x ∈ ws, 0 ≤ x.2 := by
  intro labels
  induction labels with
  | nil =>
    intro lat lat' hfold
    simp [pctFold] at hfold
    exact ⟨[], by simp [hfold], by simp⟩
  | cons lbl0 rest ih =>
    intro lat lat' hfold
    cases hs : searchPct lbl0 line with
    | none =>
      rw [pctFold_cons_ok (pctStep_none hs)] at hfold
      exact ih lat lat' hfold
    | some caphk =>
      obtain ⟨cap0, hk0⟩ := caphk
      cases hw : parseFloat cap0 with
      | none =>
        rw [pctFold_cons_err (pctStep_bad hs hw)] at hfold
        exact absurd hfold (by simp)
      | some w0 =>
        rw [pctFold_cons_ok (pctStep_parsed hs hw)] at hfold
        obtain ⟨ws, hws, hpos⟩ := ih _ lat' hfold
        refine ⟨(lbl0, if hk0 then w0 * 1000 else w0) :: ws, by simpa using hws, ?_⟩
        intro x hx
        rcases List.mem_cons.mp hx with rfl | hx
        · have hnn := parseFloat_nonneg hw
          by_cases hk : hk0 = true
          · simp [hk]; positivity
          · simp at hk; simp [hk]; exact hnn
        · exact hpos x hx

/-! ### Structural lemmas for a successful `processLine` step -/

theorem processLine_bench_ok {st : PState} {line : List Char} {r : ℚ} {b : BMatch}
    {st' : PState} (hrho : st.currentRatio = some r) (hr : searchRatio line = none)
    (hb : searchBench line = some b) (hok : processLine st line = Except.ok st') :
    ∃ q, parseFloat b.tpCap = some q ∧
      st'.currentRatio = some r ∧
      st'.tp = tpInsert st.tp b.name r b.depth (if b.unit = 'K' then q / 1000 else q) ∧
      pctFold line b.name r b.depth st.lat pctLabels = Except.ok st'.lat := by
  simp only [processLine, hr, hrho, hb] at hok
  cases hq : parseFloat b.tpCap with
  | none =>
    simp only [hq] at hok
    exact absurd hok (by simp)
  | some q =>
    simp only [hq] at hok
    cases hf : pctFold line b.name r b.depth st.lat pctLabels with
    | error e =>
      simp only [hf] at hok
      exact absurd hok (by simp)
    | ok lat1 =>
      simp only [hf, Except.ok.injEq] at hok
      refine ⟨q, rfl, ?_, ?_, ?_⟩ <;> rw [← hok]

theorem processLine_bench_mk {st : PState} {line : List Char} {r : ℚ} {b : BMatch} {q : ℚ}
    (hrho : st.currentRatio = some r) (hr : searchRatio line = none)
    (hb : searchBench line = some b) (hq : parseFloat b.tpCap = some q)
    (hp : ∀ lbl ∈ pctLabels, pctOK line lbl) :
    ∃ st', processLine st line = Except.ok st' := by
  obtain ⟨lat', hlat⟩ := @pctFold_mk line b.name r b.depth pctLabels st.lat hp
  refine ⟨⟨some r, tpInsert st.tp b.name r b.depth
    (if b.unit = 'K' then q / 1000 else q), lat'⟩, ?_⟩
  simp only [processLine, hr, hrho, hb, hq, hlat]

theorem processLine_cases {st : PState} {line : List Char} {st' : PState}
    (h : processLine st line = Except.ok st') :
    (st'.tp = st.tp ∧ st'.lat = st.lat) ∨
    ∃ (n : List Char) (r : ℚ) (d : ℕ) (t : ℚ) (ws : List (List Char × ℚ)),
      st.currentRatio = some r ∧ 0 ≤ t ∧
      st'.tp = tpInsert st.tp n r d t ∧
      st'.lat = ws.foldl (fun a (x : List Char × ℚ) => latInsert a n r d x.1 x.2) st.lat ∧
      ∀ x ∈ ws, 0 ≤ x.2 := by
  unfold processLine at h
  cases hsr : searchRatio line with
  | some cap =>
    simp only [hsr] at h
    cases hq : parseFloat cap with
    | none =>
      simp only [hq] at h
      exact absurd h (by simp)
    | some q =>
      simp only [hq, Except.ok.injEq] at h
      left
      rw [← h]
      exact ⟨rfl, rfl⟩
  | none =>
    simp only [hsr] at h
    cases hcr : st.currentRatio with
    | none =>
      simp only [hcr, Except.ok.injEq] at h
      left; rw [← h]; exact ⟨rfl, rfl⟩
    | some r =>
      simp only [hcr] at h
      cases hsb : searchBench line with
      | none =>
        simp only [hsb, Except.ok.injEq] at h
        left; rw [← h]; exact ⟨rfl, rfl⟩
      | some b =>
        simp only [hsb] at h
        cases hq : parseFloat b.tpCap with
        | none =>
          simp only [hq] at h
          exact absurd h (by simp)
        | some q =>
          simp only [hq] at h
          cases hf : pctFold line b.name r b.depth st.lat pctLabels with
          | error e =>
            simp only [hf] at h
            exact absurd h (by simp)
          | ok lat1 =>
            simp only [hf, Except.ok.injEq] at h
            obtain ⟨ws, hws, hpos⟩ := pctFold_chain pctLabels st.lat lat1 hf
            right
            refine ⟨b.name, r, b.depth, (if b.unit = 'K' then q / 1000 else q), ws,
              rfl, ?_, ?_, ?_, hpos⟩
            · have hnn := parseFloat_nonneg hq
              by_cases hu : b.unit = 'K'
              · simp [hu]; positivity
              · simp [hu]; exact hnn
            · rw [← h]
            · rw [← h]; exact hws

/-! ### Lines before the first announcement -/

theorem runLines_skip_noratio :
    ∀ (pre rest : List (List Char)), (∀ l ∈ pre, searchRatio l = none) →
      runLines initState (pre ++ rest) = runLines initState rest := by
  intro pre
  induction pre with
  | nil => intro rest _; rfl
  | cons l t ih =>
    intro rest h
    have h0 : processLine initState l = Except.ok initState :=
      processLine_skip (h l (List.mem_cons_self _ _)) rfl
    rw [List.cons_append, runLines_cons_ok h0]
    exact ih rest (fun x hx => h x (List.mem_cons_of_mem _ hx))

/-! ### The latency-implies-throughput invariant -/

theorem latChain_lookup {n : List Char} {r : ℚ} {d : ℕ} :
    ∀ (ws : List (List Char × ℚ)) (lat0 : LatModel) {n' : List Char} {r' : ℚ} {d' : ℕ}
      {lbl' : List Char} {v : ℚ},
      latLookup (ws.foldl (fun a x => latInsert a n r d x.1 x.2) lat0) n' r' d' lbl' =
        some v →
      (n' = n ∧ r' = r ∧ d' = d) ∨ latLookup lat0 n' r' d' lbl' = some v := by
  intro ws
  induction ws with
  | nil => intro lat0 n' r' d' lbl' v h; right; exact h
  | cons x t ih =>
    intro lat0 n' r' d' lbl' v h
    rw [List.foldl_cons] at h
    rcases ih _ h with hk | hold
    · exact Or.inl hk
    · rw [latLookup_latInsert] at hold
      by_cases hc : n' = n ∧ r' = r ∧ d' = d ∧ lbl' = x.1
      · exact Or.inl ⟨hc.1, hc.2.1, hc.2.2.1⟩
      · right; rwa [if_neg hc] at hold

theorem processLine_latSubTp {st st' : PState} {line : List Char}
    (h : processLine st line = Except.ok st') (inv : LatSubTp st) : LatSubTp st' := by
  rcases processLine_cases h with ⟨htp, hlat⟩ | ⟨n, r, d, t, ws, hcr, hge, htp, hlat, hws⟩
  · intro n' r' d' lbl' v hv
    rw [hlat] at hv
    rw [htp]
    exact inv n' r' d' lbl' v hv
  · intro n' r' d' lbl' v hv
    rw [hlat] at hv
    rw [htp]
    rcases latChain_lookup ws st.lat hv with ⟨rfl, rfl, rfl⟩ | hold
    · exact ⟨t, by rw [tpLookup_tpInsert]; simp⟩
    · obtain ⟨w, hw⟩ := inv n' r' d' lbl' v hold
      rw [tpLookup_tpInsert]
      by_cases hc : n' = n ∧ r' = r ∧ d' = d
      · exact ⟨t, by rw [if_pos hc]⟩
      · exact ⟨w, by rw [if_neg hc]; exact hw⟩

theorem runLines_latSubTp :
    ∀ (lines : List (List Char)) (st st' : PState),
      runLines st lines = Except.ok st' → LatSubTp st → LatSubTp st' := by
  intro lines
  induction lines with
  | nil =>
    intro st st' h inv
    simp [runLines] at h
    rwa [← h]
  | cons l rest ih =>
    intro st st' h inv
    cases hp : processLine st l with
    | error e =>
      rw [runLines, hp] at h
      exact absurd h (by simp)
    | ok st1 =>
      rw [runLines_cons_ok hp] at h
      exact ih st1 st' h (processLine_latSubTp hp inv)

theorem initState_latSubTp : LatSubTp initState := by
  intro n r d lbl v hv
  simp [initState, latLookup, alFind] at hv

/-! ### Non-negativity invariants -/

theorem tpNonneg_insert {tp : TpModel} {n : List Char} {r : ℚ} {d : ℕ} {v : ℚ}
    (h : TpNonneg tp) (hv : 0 ≤ v) : TpNonneg (tpInsert tp n r d v) := by
  intro p hp q hq e he
  unfold tpInsert at hp
  rcases mem_alUpd hp with hp | rfl
  · exact h p hp q hq e he
  · simp only at hq
    rcases mem_alUpd hq with hq | rfl
    · cases hfind : alFind tp n with
      | none => rw [hfind] at hq; simp at hq
      | some mr0 =>
        rw [hfind] at hq
        exact h (n, mr0) (alFind_mem hfind) q hq e he
    · simp only at he
      rcases mem_alUpd he with he | rfl
      · cases hfind : alFind tp n with
        | none => rw [hfind] at he; simp [alFind] at he
        | some mr0 =>
          simp only [hfind, Option.getD_some] at he
          cases hfind2 : alFind mr0 r with
          | none => simp only [hfind2, Option.getD_none] at he; simp at he
          | some md0 =>
            simp only [hfind2, Option.getD_some] at he
            exact h (n, mr0) (alFind_mem hfind) (r, md0) (alFind_mem hfind2) e he
      · exact hv

theorem latNonneg_insert {lat : LatModel} {n : List Char} {r : ℚ} {d : ℕ}
    {lbl : List Char} {v : ℚ} (h : LatNonneg lat) (hv : 0 ≤ v) :
    LatNonneg (latInsert lat n r d lbl v) := by
  intro p hp q hq e he x hx
  unfold latInsert at hp
  rcases mem_alUpd hp with hp | rfl
  · exact h p hp q hq e he x hx
  · simp only at hq
    rcases mem_alUpd hq with hq | rfl
    · cases hfind : alFind lat n with
      | none => rw [hfind] at hq; simp at hq
      | some mr0 =>
        rw [hfind] at hq
        exact h (n, mr0) (alFind_mem hfind) q hq e he x hx
    · simp only at he
      rcases mem_alUpd he with he | rfl
      · cases hfind : alFind lat n with
        | none => rw [hfind] at he; simp [alFind] at he
        | some mr0 =>
          simp only [hfind, Option.getD_some] at he
          cases hfind2 : alFind mr0 r with
          | none => simp only [hfind2, Option.getD_none] at he; simp at he
          | some md0 =>
            simp only [hfind2, Option.getD_some] at he
            exact h (n, mr0) (alFind_mem hfind) (r, md0) (alFind_mem hfind2) e he x hx
      · simp only at hx
        rcases mem_alUpd hx with hx | rfl
        · cases hfind : alFind lat n with
          | none => rw [hfind] at hx; simp [alFind] at hx
          | some mr0 =>
            simp only [hfind, Option.getD_some] at hx
            cases hfind2 : alFind mr0 r with
            | none => simp only [hfind2, Option.getD_none] at hx; simp [alFind] at hx
            | some md0 =>
              simp only [hfind2, Option.getD_some] at hx
              cases hfind3 : alFind md0 d with
              | none => simp only [hfind3, Option.getD_none] at hx; simp at hx
              | some mp0 =>
                simp only [hfind3, Option.getD_some] at hx
                exact h (n, mr0) (alFind_mem hfind) (r, md0) (alFind_mem hfind2)
                  (d, mp0) (alFind_mem hfind3) x hx
        · exact hv

theorem latChain_nonneg {n : List Char} {r : ℚ} {d : ℕ} :
    ∀ (ws : List (List Char × ℚ)) (lat0 : LatModel), LatNonneg lat0 →
      (∀ x ∈ ws, 0 ≤ x.2) →
      LatNonneg (ws.foldl (fun a x => latInsert a n r d x.1 x.2) lat0) := by
  intro ws
  induction ws with
  | nil => intro lat0 h _; exact h
  | cons x t ih =>
    intro lat0 h hws
    rw [List.foldl_cons]
    exact ih _ (latNonneg_insert h (hws x (List.mem_cons_self _ _)))
      (fun y hy => hws y (List.mem_cons_of_mem _ hy))

theorem processLine_nonneg {st st' : PState} {line : List Char}
    (h : processLine st line = Except.ok st') (h1 : TpNonneg st.tp)
    (h2 : LatNonneg st.lat) : TpNonneg st'.tp ∧ LatNonneg st'.lat := by
  rcases processLine_cases h with ⟨htp, hlat⟩ | ⟨n, r, d, t, ws, hcr, hge, htp, hlat, hws⟩
  · rw [htp, hlat]; exact ⟨h1, h2⟩
  · rw [htp, hlat]
    exact ⟨tpNonneg_insert h1 hge, latChain_nonneg ws st.lat h2 hws⟩

theorem runLines_nonneg :
    ∀ (lines : List (List Char)) (st st' : PState),
      runLines st lines = Except.ok st' → TpNonneg st.tp → LatNonneg st.lat →
      TpNonneg st'.tp ∧ LatNonneg st'.lat := by
  intro lines
  induction lines with
  | nil =>
    intro st st' h h1 h2
    simp [runLines] at h
    rw [← h]
    exact ⟨h1, h2⟩
  | cons l rest ih =>
    intro st st' h h1 h2
    cases hp : processLine st l with
    | error e =>
      rw [runLines, hp] at h
      exact absurd h (by simp)
    | ok st1 =>
      rw [runLines_cons_ok hp] at h
      obtain ⟨g1, g2⟩ := processLine_nonneg hp h1 h2
      exact ih st1 st' h g1 g2

/-! ### Non-negativity through consolidation -/

theorem insDepths_nonneg {acc : TpModel} {cn : List Char} {r : ℚ}
    {md : List (ℕ × ℚ)} (hacc : TpNonneg acc) (hmd : ∀ e ∈ md, 0 ≤ e.2) :
    TpNonneg (insDepths acc cn r md) := by
  induction md generalizing acc with
  | nil => exact hacc
  | cons e t ih =>
    rw [insDepths, List.foldl_cons]
    exact ih (tpNonneg_insert hacc (hmd e (List.mem_cons_self _ _)))
      (fun x hx => hmd x (List.mem_cons_of_mem _ hx))

theorem insRatios_nonneg {acc : TpModel} {cn : List Char}
    {rs : List (ℚ × List (ℕ × ℚ))} (hacc : TpNonneg acc)
    (hrs : ∀ q ∈ rs, ∀ e ∈ q.2, 0 ≤ e.2) : TpNonneg (insRatios acc cn rs) := by
  induction rs generalizing acc with
  | nil => exact hacc
  | cons p t ih =>
    rw [insRatios, List.foldl_cons]
    exact ih (insDepths_nonneg hacc (hrs p (List.mem_cons_self _ _)))
      (fun x hx => hrs x (List.mem_cons_of_mem _ hx))

theorem conFold_nonneg {flag : Bool} :
    ∀ (l : List (List Char × List (ℚ × List (ℕ × ℚ)))) (acc : TpModel),
      (∀ p ∈ l, ∀ q ∈ p.2, ∀ e ∈ q.2, 0 ≤ e.2) → TpNonneg acc →
      TpNonneg (l.foldl (conStep flag) acc) := by
  intro l
  induction l with
  | nil => intro acc _ hacc; exact hacc
  | cons p t ih =>
    intro acc hl hacc
    rw [List.foldl_cons]
    unfold conStep
    by_cases hc : p.1 = nmAddLat ∧ flag = true
    · rw [if_pos hc]
      exact ih acc (fun x hx => hl x (List.mem_cons_of_mem _ hx)) hacc
    · rw [if_neg hc]
      exact ih _ (fun x hx => hl x (List.mem_cons_of_mem _ hx))
        (insRatios_nonneg hacc (hl p (List.mem_cons_self _ _)))

theorem consolidateTp_nonneg {tp : TpModel} (h : TpNonneg tp) :
    TpNonneg (consolidateTp tp) := by
  unfold consolidateTp
  exact conFold_nonneg tp [] h (by intro p hp; simp at hp)

theorem insPcts_nonneg {acc : LatModel} {cn : List Char} {r : ℚ} {d : ℕ}
    {mp : List (List Char × ℚ)} (hacc : LatNonneg acc) (hmp : ∀ x ∈ mp, 0 ≤ x.2) :
    LatNonneg (insPcts acc cn r d mp) := by
  induction mp generalizing acc with
  | nil => exact hacc
  | cons e t ih =>
    rw [insPcts, List.foldl_cons]
    exact ih (latNonneg_insert hacc (hmp e (List.mem_cons_self _ _)))
      (fun x hx => hmp x (List.mem_cons_of_mem _ hx))

theorem insLatDepths_nonneg {acc : LatModel} {cn : List Char} {r : ℚ}
    {md : List (ℕ × List (List Char × ℚ))} (hacc : LatNonneg acc)
    (hmd : ∀ e ∈ md, ∀ x ∈ e.2, 0 ≤ x.2) : LatNonneg (insLatDepths acc cn r md) := by
  induction md generalizing acc with
  | nil => exact hacc
  | cons e t ih =>
    rw [insLatDepths, List.foldl_cons]
    exact ih (insPcts_nonneg hacc (hmd e (List.mem_cons_self _ _)))
      (fun x hx => hmd x (List.mem_cons_of_mem _ hx))

theorem insLatRatios_nonneg {acc : LatModel} {cn : List Char}
    {rs : List (ℚ × List (ℕ × List (List Char × ℚ)))} (hacc : LatNonneg acc)
    (hrs : ∀ q ∈ rs, ∀ e ∈ q.2, ∀ x ∈ e.2, 0 ≤ x.2) :
    LatNonneg (insLatRatios acc cn rs) := by
  induction rs generalizing acc with
  | nil => exact hacc
  | cons p t ih =>
    rw [insLatRatios, List.foldl_cons]
    exact ih (insLatDepths_nonneg hacc (hrs p (List.mem_cons_self _ _)))
      (fun x hx => hrs x (List.mem_cons_of_mem _ hx))

theorem consolidateLat_nonneg {lat : LatModel} (h : LatNonneg lat) :
    LatNonneg (consolidateLat lat) := by
  unfold consolidateLat
  have main : ∀ (l : List (List Char × List (ℚ × List (ℕ × List (List Char × ℚ)))))
      (acc : LatModel),
      (∀ p ∈ l, ∀ q ∈ p.2, ∀ e ∈ q.2, ∀ x ∈ e.2, 0 ≤ x.2) → LatNonneg acc →
      LatNonneg (l.foldl (fun acc p => insLatRatios acc (nameMap p.1) p.2) acc) := by
    intro l
    induction l with
    | nil => intro acc _ hacc; exact hacc
    | cons p t ih =>
      intro acc hl hacc
      rw [List.foldl_cons]
      exact ih _ (fun x hx => hl x (List.mem_cons_of_mem _ hx))
        (insLatRatios_nonneg hacc (hl p (List.mem_cons_self _ _)))
  exact main lat [] h (by intro p hp; simp at hp)

/-! ### More association-list lemmas -/

theorem alFind_eq_none_of_not_mem {α β : Type} [DecidableEq α] {m : List (α × β)} {k : α}
    (h : ∀ p ∈ m, p.1 ≠ k) : alFind m k = none := by
  induction m with
  | nil => rfl
  | cons p t ih =>
    obtain ⟨k0, v0⟩ := p
    have h0 : k0 ≠ k := h (k0, v0) (List.mem_cons_self _ _)
    simp only [alFind]
    rw [if_neg (fun hh => h0 hh.symm)]
    exact ih (fun x hx => h x (List.mem_cons_of_mem _ hx))

theorem alFind_decomp {α β : Type} [DecidableEq α] {m : List (α × β)} {k : α} {v : β}
    (h : alFind m k = some v) :
    ∃ pre post, m = pre ++ (k, v) :: post ∧ ∀ p ∈ pre, p.1 ≠ k := by
  induction m with
  | nil => simp [alFind] at h
  | cons p t ih =>
    obtain ⟨k0, v0⟩ := p
    by_cases h0 : k = k0
    · subst h0
      simp [alFind] at h
      subst h
      exact ⟨[], t, rfl, by simp⟩
    · simp only [alFind, if_neg h0] at h
      obtain ⟨pre, post, hsplit, hpre⟩ := ih h
      refine ⟨(k0, v0) :: pre, post, by rw [hsplit]; rfl, ?_⟩
      intro p hp
      rcases List.mem_cons.mp hp with rfl | hp
      · exact fun hh => h0 hh.symm
      · exact hpre p hp

theorem alFind_none_not_key {α β : Type} [DecidableEq α] {m : List (α × β)} {k : α}
    (h : alFind m k = none) : ∀ p ∈ m, p.1 ≠ k := by
  induction m with
  | nil => intro p hp; simp at hp
  | cons p0 t ih =>
    obtain ⟨k0, v0⟩ := p0
    simp only [alFind] at h
    by_cases h0 : k = k0
    · rw [if_pos h0] at h; exact absurd h (by simp)
    · rw [if_neg h0] at h
      intro p hp
      rcases List.mem_cons.mp hp with rfl | hp
      · exact fun hh => h0 hh.symm
      · exact ih h p hp

/-! ### Lookup equations through consolidation inserts -/

theorem tpLookup_tpInsert_other {acc : TpModel} {cn : List Char} {r : ℚ} {d : ℕ} {v : ℚ}
    {n' : List Char} {r' : ℚ} {d' : ℕ} (hcn : n' ≠ cn) :
    tpLookup (tpInsert acc cn r d v) n' r' d' = tpLookup acc n' r' d' := by
  rw [tpLookup_tpInsert, if_neg (fun hh => hcn hh.1)]

theorem tpLookup_insDepths_other {cn : List Char} {r : ℚ} {md : List (ℕ × ℚ)}
    {n' : List Char} {r' : ℚ} {d' : ℕ} (hcn : n' ≠ cn) :
    ∀ acc : TpModel, tpLookup (insDepths acc cn r md) n' r' d' = tpLookup acc n' r' d' := by
  induction md with
  | nil => intro acc; rfl
  | cons e t ih =>
    intro acc
    exact (ih (tpInsert acc cn r e.1 e.2)).trans (tpLookup_tpInsert_other hcn)

theorem tpLookup_insRatios_other {cn : List Char} {rs : List (ℚ × List (ℕ × ℚ))}
    {n' : List Char} {r' : ℚ} {d' : ℕ} (hcn : n' ≠ cn) :
    ∀ acc : TpModel, tpLookup (insRatios acc cn rs) n' r' d' = tpLookup acc n' r' d' := by
  induction rs with
  | nil => intro acc; rfl
  | cons p t ih =>
    intro acc
    exact (ih (insDepths acc cn p.1 p.2)).trans (tpLookup_insDepths_other hcn _)

theorem alFind_tpInsert_other {acc : TpModel} {cn : List Char} {r : ℚ} {d : ℕ} {v : ℚ}
    {k : List Char} (hk : k ≠ cn) : alFind (tpInsert acc cn r d v) k = alFind acc k := by
  unfold tpInsert
  rw [alFind_alUpd, if_neg hk]

theorem alFind_insDepths_other {cn : List Char} {r : ℚ} {md : List (ℕ × ℚ)}
    {k : List Char} (hk : k ≠ cn) :
    ∀ acc : TpModel, alFind (insDepths acc cn r md) k = alFind acc k := by
  induction md with
  | nil => intro acc; rfl
  | cons e t ih =>
    intro acc
    exact (ih (tpInsert acc cn r e.1 e.2)).trans (alFind_tpInsert_other hk)

theorem alFind_insRatios_other {cn : List Char} {rs : List (ℚ × List (ℕ × ℚ))}
    {k : List Char} (hk : k ≠ cn) :
    ∀ acc : TpModel, alFind (insRatios acc cn rs) k = alFind acc k := by
  induction rs with
  | nil => intro acc; rfl
  | cons p t ih =>
    intro acc
    exact (ih (insDepths acc cn p.1 p.2)).trans (alFind_insDepths_other hk _)

theorem tpLookup_insDepths {cn : List Char} {r : ℚ} {n' : List Char} {r' : ℚ} {d' : ℕ} :
    ∀ (md : List (ℕ × ℚ)) (acc : TpModel), NDKeys md →
      tpLookup (insDepths acc cn r md) n' r' d' =
        if n' = cn ∧ r' = r then orO (alFind md d') (tpLookup acc n' r' d')
        else tpLookup acc n' r' d' := by
  intro md
  induction md with
  | nil =>
    intro acc _
    by_cases h : n' = cn ∧ r' = r <;> simp [insDepths, orO, alFind, h]
  | cons e t ih =>
    intro acc hnd
    obtain ⟨d0, v0⟩ := e
    have hnd1 : NDKeys t := by
      unfold NDKeys at hnd ⊢
      simpa using hnd.of_cons
    have hd0 : d0 ∉ t.map Prod.fst := by
      unfold NDKeys at hnd
      simpa using (List.nodup_cons.mp hnd).1
    have hstep : insDepths acc cn r ((d0, v0) :: t) = insDepths (tpInsert acc cn r d0 v0) cn r t := rfl
    rw [hstep, ih _ hnd1]
    by_cases hc : n' = cn ∧ r' = r
    · obtain ⟨rfl, rfl⟩ := hc
      rw [if_pos ⟨rfl, rfl⟩, if_pos ⟨rfl, rfl⟩]
      by_cases hd : d' = d0
      · subst hd
        have ht : alFind t d' = none :=
          alFind_eq_none_of_not_mem (fun p hp hh => hd0 (hh ▸ List.mem_map_of_mem Prod.fst hp))
        simp [tpLookup_tpInsert, ht, orO, alFind]
      · simp [tpLookup_tpInsert, hd, orO, alFind]
    · rw [if_neg hc, if_neg hc]
      by_cases hn : n' = cn
      · subst hn
        have hr : ¬ r' = r := fun hh => hc ⟨rfl, hh⟩
        rw [tpLookup_tpInsert, if_neg (fun hh => hr hh.2.1)]
      · rw [tpLookup_tpInsert, if_neg (fun hh => hn hh.1)]

theorem tpLookup_insRatios {cn : List Char} {n' : List Char} {r' : ℚ} {d' : ℕ} :
    ∀ (rs : List (ℚ × List (ℕ × ℚ))) (acc : TpModel), RsWF rs →
      tpLookup (insRatios acc cn rs) n' r' d' =
        if n' = cn then orO (lookup2 rs r' d') (tpLookup acc n' r' d')
        else tpLookup acc n' r' d' := by
  intro rs
  induction rs with
  | nil =>
    intro acc _
    by_cases h : n' = cn <;> simp [insRatios, orO, lookup2, alFind, h]
  | cons p t ih =>
    intro acc hwf
    obtain ⟨r0, md0⟩ := p
    obtain ⟨hwfa, hwfb⟩ := hwf
    have hwf1 : RsWF t := by
      refine ⟨?_, fun q hq => hwfb q (List.mem_cons_of_mem _ hq)⟩
      unfold NDKeys at hwfa ⊢
      simpa using hwfa.of_cons
    have hr0 : r0 ∉ t.map Prod.fst := by
      unfold NDKeys at hwfa
      simpa using (List.nodup_cons.mp hwfa).1
    have hmd0 : NDKeys md0 := hwfb (r0, md0) (List.mem_cons_self _ _)
    have hstep : insRatios acc cn ((r0, md0) :: t) = insRatios (insDepths acc cn r0 md0) cn t := rfl
    rw [hstep, ih _ hwf1]
    by_cases hn : n' = cn
    · subst hn
      rw [if_pos rfl, if_pos rfl]
      rw [tpLookup_insDepths md0 acc hmd0]
      by_cases hr : r' = r0
      · subst hr
        have ht : alFind t r' = none :=
          alFind_eq_none_of_not_mem (fun p hp hh => hr0 (hh ▸ List.mem_map_of_mem Prod.fst hp))
        rw [if_pos ⟨rfl, rfl⟩]
        have hl2 : lookup2 t r' d' = none := by simp [lookup2, ht]
        have hl2c : lookup2 ((r', md0) :: t) r' d' = alFind md0 d' := by
          simp [lookup2, alFind]
        rw [hl2, hl2c]
        simp [orO]
      · rw [if_neg (fun hh => hr hh.2)]
        have hl2c : lookup2 ((r0, md0) :: t) r' d' = lookup2 t r' d' := by
          simp [lookup2, alFind, hr]
        rw [hl2c]
    · rw [if_neg hn, if_neg hn]
      rw [tpLookup_insDepths md0 acc hmd0, if_neg (fun hh => hn hh.1)]

/-! ### Name-mapping facts -/

theorem nameMap_nmNoMatch : nameMap nmNoMatch = cnAddOrder := by decide

theorem nameMap_nmAddLat : nameMap nmAddLat = cnAddOrder := by decide

theorem nmNoMatch_ne_AddLat : nmNoMatch ≠ nmAddLat := by decide

theorem nameMap_to_AO {n : List Char} (h : nameMap n = cnAddOrder) :
    n = nmNoMatch ∨ n = nmAddLat ∨ n = cnAddOrder := by
  unfold nameMap at h
  by_cases h1 : n = nmNoMatch
  · exact Or.inl h1
  · rw [if_neg h1] at h
    by_cases h2 : n = nmAddLat
    · exact Or.inr (Or.inl h2)
    · rw [if_neg h2] at h
      by_cases h3 : n = nmRemove
      · rw [if_pos h3] at h
        exact absurd h (by decide)
      · rw [if_neg h3] at h
        by_cases h4 : n = nmMixed
        · rw [if_pos h4] at h
          exact absurd h (by decide)
        · rw [if_neg h4] at h
          exact Or.inr (Or.inr h)

theorem nameMap_ne_AddLat (n : List Char) : nameMap n ≠ nmAddLat := by
  unfold nameMap
  by_cases h1 : n = nmNoMatch
  · rw [if_pos h1]; decide
  · rw [if_neg h1]
    by_cases h2 : n = nmAddLat
    · rw [if_pos h2]; decide
    · rw [if_neg h2]
      by_cases h3 : n = nmRemove
      · rw [if_pos h3]; decide
      · rw [if_neg h3]
        by_cases h4 : n = nmMixed
        · rw [if_pos h4]; decide
        · rw [if_neg h4]; exact h2

/-! ### Consolidation fold lemmas -/

theorem conFold_AO_untouched {flag : Bool} {r : ℚ} {d : ℕ} :
    ∀ (l : List (List Char × List (ℚ × List (ℕ × ℚ)))) (acc : TpModel),
      (∀ p ∈ l, (p.1 = nmAddLat ∧ flag = true) ∨ nameMap p.1 ≠ cnAddOrder) →
      tpLookup (l.foldl (conStep flag) acc) cnAddOrder r d =
        tpLookup acc cnAddOrder r d := by
  intro l
  induction l with
  | nil => intro acc _; rfl
  | cons p t ih =>
    intro acc hl
    rw [List.foldl_cons]
    rcases hl p (List.mem_cons_self _ _) with hc | hc
    · have hstep : conStep flag acc p = acc := by
        unfold conStep; rw [if_pos hc]
      rw [hstep]
      exact ih acc (fun x hx => hl x (List.mem_cons_of_mem _ hx))
    · by_cases hskip : p.1 = nmAddLat ∧ flag = true
      · have hstep : conStep flag acc p = acc := by
          unfold conStep; rw [if_pos hskip]
        rw [hstep]
        exact ih acc (fun x hx => hl x (List.mem_cons_of_mem _ hx))
      · have hstep : conStep flag acc p = insRatios acc (nameMap p.1) p.2 := by
          unfold conStep; rw [if_neg hskip]
        rw [hstep]
        rw [ih _ (fun x hx => hl x (List.mem_cons_of_mem _ hx))]
        exact tpLookup_insRatios_other (fun hh => hc hh.symm) acc

theorem conFold_find_AddLat {flag : Bool} :
    ∀ (l : List (List Char × List (ℚ × List (ℕ × ℚ)))) (acc : TpModel),
      alFind (l.foldl (conStep flag) acc) nmAddLat = alFind acc nmAddLat := by
  intro l
  induction l with
  | nil => intro acc; rfl
  | cons p t ih =>
    intro acc
    rw [List.foldl_cons]
    by_cases hskip : p.1 = nmAddLat ∧ flag = true
    · have hstep : conStep flag acc p = acc := by
        unfold conStep; rw [if_pos hskip]
      rw [hstep, ih]
    · have hstep : conStep flag acc p = insRatios acc (nameMap p.1) p.2 := by
        unfold conStep; rw [if_neg hskip]
      rw [hstep, ih]
      exact alFind_insRatios_other (fun hh => nameMap_ne_AddLat p.1 hh.symm) acc

/-! ### The consolidation suppression theorem -/

theorem tpLookup_empty (n : List Char) (r : ℚ) (d : ℕ) : tpLookup [] n r d = none := rfl

theorem consolidateTp_from_source {flag : Bool} {tp : TpModel}
    {pre post : List (List Char × List (ℚ × List (ℕ × ℚ)))}
    {src : List Char} {S : List (ℚ × List (ℕ × ℚ))} {r : ℚ} {d : ℕ}
    (hsplit : tp = pre ++ (src, S) :: post)
    (hmap : nameMap src = cnAddOrder)
    (hnoskip : ¬ (src = nmAddLat ∧ flag = true))
    (hSwf : RsWF S)
    (hpreU : ∀ p ∈ pre, (p.1 = nmAddLat ∧ flag = true) ∨ nameMap p.1 ≠ cnAddOrder)
    (hpostU : ∀ p ∈ post, (p.1 = nmAddLat ∧ flag = true) ∨ nameMap p.1 ≠ cnAddOrder) :
    tpLookup (tp.foldl (conStep flag) []) cnAddOrder r d = lookup2 S r d := by
  rw [hsplit, List.foldl_append, List.foldl_cons]
  have hstep : conStep flag (pre.foldl (conStep flag) []) (src, S) =
      insRatios (pre.foldl (conStep flag) []) cnAddOrder S := by
    unfold conStep
    rw [if_neg hnoskip]
    simp only at hmap ⊢
    rw [hmap]
  rw [hstep]
  rw [conFold_AO_untouched post _ hpostU]
  rw [tpLookup_insRatios S _ hSwf, if_pos rfl]
  rw [conFold_AO_untouched pre [] hpreU, tpLookup_empty]
  cases h2 : lookup2 S r d <;> simp [orO]

theorem consolidateTp_AddOrder (tp : TpModel) (hwf : TpWF tp)
    (hclean : alFind tp cnAddOrder = none) :
    (∀ S, alFind tp nmNoMatch = some S →
      ∀ r d, tpLookup (consolidateTp tp) cnAddOrder r d = tpLookup tp nmNoMatch r d)
    ∧ (alFind tp nmNoMatch = none →
      ∀ r d, tpLookup (consolidateTp tp) cnAddOrder r d = tpLookup tp nmAddLat r d)
    ∧ alFind (consolidateTp tp) nmAddLat = none := by
  have hAOall : ∀ p ∈ tp, p.1 ≠ cnAddOrder := alFind_none_not_key hclean
  refine ⟨?_, ?_, ?_⟩
  · intro S hS r d
    have hflag : (alFind tp nmNoMatch).isSome = true := by rw [hS]; rfl
    obtain ⟨pre, post, hsplit, hpre⟩ := alFind_decomp hS
    have hkeys := hwf.1
    unfold NDKeys at hkeys
    rw [hsplit] at hkeys
    simp only [List.map_append, List.map_cons] at hkeys
    have hcpost : (nmNoMatch :: post.map Prod.fst).Nodup := hkeys.of_append_right
    have hpostm : nmNoMatch ∉ post.map Prod.fst := (List.nodup_cons.mp hcpost).1
    have hpost : ∀ p ∈ post, p.1 ≠ nmNoMatch :=
      fun p hp heq => hpostm (heq ▸ List.mem_map_of_mem Prod.fst hp)
    have hSwf : RsWF S := hwf.2 (nmNoMatch, S)
      (by rw [hsplit]; exact List.mem_append_right _ (List.mem_cons_self _ _))
    have hpreU : ∀ p ∈ pre, (p.1 = nmAddLat ∧ true = true) ∨ nameMap p.1 ≠ cnAddOrder := by
      intro p hp
      by_cases hl : p.1 = nmAddLat
      · exact Or.inl ⟨hl, rfl⟩
      · refine Or.inr (fun hmap => ?_)
        rcases nameMap_to_AO hmap with h1 | h1 | h1
        · exact hpre p hp h1
        · exact hl h1
        · exact hAOall p (by rw [hsplit]; exact List.mem_append_left _ hp) h1
    have hpostU : ∀ p ∈ post, (p.1 = nmAddLat ∧ true = true) ∨ nameMap p.1 ≠ cnAddOrder := by
      intro p hp
      by_cases hl : p.1 = nmAddLat
      · exact Or.inl ⟨hl, rfl⟩
      · refine Or.inr (fun hmap => ?_)
        rcases nameMap_to_AO hmap with h1 | h1 | h1
        · exact hpost p hp h1
        · exact hl h1
        · exact hAOall p
            (by rw [hsplit]
                exact List.mem_append_right _ (List.mem_cons_of_mem _ hp)) h1
    have hcon : consolidateTp tp = tp.foldl (conStep true) [] := by
      unfold consolidateTp; rw [hflag]
    rw [hcon, consolidateTp_from_source hsplit nameMap_nmNoMatch
      (fun hh => nmNoMatch_ne_AddLat hh.1) hSwf hpreU hpostU]
    simp [tpLookup, hS, lookup2]
  · intro hnone r d
    have hflag : (alFind tp nmNoMatch).isSome = false := by rw [hnone]; rfl
    have hcon : consolidateTp tp = tp.foldl (conStep false) [] := by
      unfold consolidateTp; rw [hflag]
    rw [hcon]
    cases hAL : alFind tp nmAddLat with
    | none =>
      have hall : ∀ p ∈ tp, (p.1 = nmAddLat ∧ false = true) ∨ nameMap p.1 ≠ cnAddOrder := by
        intro p hp
        refine Or.inr (fun hmap => ?_)
        rcases nameMap_to_AO hmap with h1 | h1 | h1
        · exact alFind_none_not_key hnone p hp h1
        · exact alFind_none_not_key hAL p hp h1
        · exact hAOall p hp h1
      rw [conFold_AO_untouched tp [] hall, tpLookup_empty]
      simp [tpLookup, hAL]
    | some S =>
      obtain ⟨pre, post, hsplit, hpre⟩ := alFind_decomp hAL
      have hkeys := hwf.1
      unfold NDKeys at hkeys
      rw [hsplit] at hkeys
      simp only [List.map_append, List.map_cons] at hkeys
      have hcpost : (nmAddLat :: post.map Prod.fst).Nodup := hkeys.of_append_right
      have hpostm : nmAddLat ∉ post.map Prod.fst := (List.nodup_cons.mp hcpost).1
      have hpost : ∀ p ∈ post, p.1 ≠ nmAddLat :=
        fun p hp heq => hpostm (heq ▸ List.mem_map_of_mem Prod.fst hp)
      have hSwf : RsWF S := hwf.2 (nmAddLat, S)
        (by rw [hsplit]; exact List.mem_append_right _ (List.mem_cons_self _ _))
      have hpreU : ∀ p ∈ pre, (p.1 = nmAddLat ∧ false = true) ∨ nameMap p.1 ≠ cnAddOrder := by
        intro p hp
        refine Or.inr (fun hmap => ?_)
        rcases nameMap_to_AO hmap with h1 | h1 | h1
        · exact alFind_none_not_key hnone p
            (by rw [hsplit]; exact List.mem_append_left _ hp) h1
        · exact hpre p hp h1
        · exact hAOall p (by rw [hsplit]; exact List.mem_append_left _ hp) h1
      have hpostU : ∀ p ∈ post, (p.1 = nmAddLat ∧ false = true) ∨ nameMap p.1 ≠ cnAddOrder := by
        intro p hp
        refine Or.inr (fun hmap => ?_)
        rcases nameMap_to_AO hmap with h1 | h1 | h1
        · exact alFind_none_not_key hnone p
            (by rw [hsplit]
                exact List.mem_append_right _ (List.mem_cons_of_mem _ hp)) h1
        · exact hpost p hp h1
        · exact hAOall p
            (by rw [hsplit]
                exact List.mem_append_right _ (List.mem_cons_of_mem _ hp)) h1
      rw [consolidateTp_from_source hsplit nameMap_nmAddLat
        (fun hh => absurd hh.2 (by simp)) hSwf hpreU hpostU]
      simp [tpLookup, hAL, lookup2]
  · unfold consolidateTp
    rw [conFold_find_AddLat tp []]
    rfl

/-! ### Sorting lemmas -/

theorem insOrd_perm (a : ℕ) (l : List ℕ) : (insOrd a l).Perm (a :: l) := by
  induction l with
  | nil => exact List.Perm.refl _
  | cons b t ih =>
    unfold insOrd
    by_cases h : a ≤ b
    · rw [if_pos h]
    · rw [if_neg h]
      exact (ih.cons b).trans (List.Perm.swap a b t)

theorem sortAsc_perm (l : List ℕ) : (sortAsc l).Perm l := by
  induction l with
  | nil => exact List.Perm.refl _
  | cons a t ih =>
    show (insOrd a (sortAsc t)).Perm (a :: t)
    exact (insOrd_perm a (sortAsc t)).trans (ih.cons a)

theorem insOrd_sorted {a : ℕ} {l : List ℕ} (h : List.Sorted (· ≤ ·) l) :
    List.Sorted (· ≤ ·) (insOrd a l) := by
  induction l with
  | nil => simp [insOrd]
  | cons b t ih =>
    unfold insOrd
    rw [List.sorted_cons] at h
    by_cases hab : a ≤ b
    · rw [if_pos hab, List.sorted_cons]
      refine ⟨?_, List.sorted_cons.mpr h⟩
      intro x hx
      rcases List.mem_cons.mp hx with rfl | hx
      · exact hab
      · exact le_trans hab (h.1 x hx)
    · rw [if_neg hab, List.sorted_cons]
      refine ⟨?_, ih h.2⟩
      intro x hx
      have hx2 : x ∈ a :: t := (insOrd_perm a t).mem_iff.mp hx
      rcases List.mem_cons.mp hx2 with rfl | hx2
      · exact le_of_not_le hab
      · exact h.1 x hx2

theorem sortAsc_sorted (l : List ℕ) : List.Sorted (· ≤ ·) (sortAsc l) := by
  induction l with
  | nil => simp [sortAsc]
  | cons a t ih => exact insOrd_sorted ih

theorem allDepths_sorted (rs : List (ℚ × List (ℕ × ℚ))) :
    List.Sorted (· < ·) (allDepths rs) := by
  unfold allDepths
  have h1 := sortAsc_sorted ((rs.map (fun p => p.2.map Prod.fst)).flatten.dedup)
  have h2 : (sortAsc ((rs.map (fun p => p.2.map Prod.fst)).flatten.dedup)).Nodup :=
    (sortAsc_perm _).nodup_iff.mpr (List.nodup_dedup _)
  have h3 := List.Pairwise.and h1 h2
  exact h3.imp (fun hx => lt_of_le_of_ne hx.1 hx.2)

/-! ### The running-maximum characterization of `bestFor` -/

theorem bestFor_go {d : ℕ} :
    ∀ (l : List (ℚ × List (ℕ × ℚ))) (bo : Option ℚ) (bt : ℚ),
      (l.foldl (fun b p =>
          match alFind p.2 d with
          | none => b
          | some v => if b.2 < v then (some p.1, v) else b) (bo, bt) = (bo, bt) ∧
        ∀ p ∈ l, ∀ v, alFind p.2 d = some v → v ≤ bt)
      ∨ (∃ pre q md post t, l = pre ++ (q, md) :: post ∧
          l.foldl (fun b p =>
            match alFind p.2 d with
            | none => b
            | some v => if b.2 < v then (some p.1, v) else b) (bo, bt) = (some q, t) ∧
          alFind md d = some t ∧ bt < t ∧
          (∀ p ∈ pre, ∀ v, alFind p.2 d = some v → v < t) ∧
          (∀ p ∈ post, ∀ v, alFind p.2 d = some v → v ≤ t)) := by
  intro l
  induction l with
  | nil =>
    intro bo bt
    left
    exact ⟨rfl, by intro p hp; simp at hp⟩
  | cons hd tl ih =>
    intro bo bt
    obtain ⟨q0, md0⟩ := hd
    rw [List.foldl_cons]
    cases hfind : alFind md0 d with
    | none =>
      simp only [hfind]
      rcases ih bo bt with ⟨heq, hall⟩ | ⟨pre, q, md, post, t, hsplit, heq, hf, hlt, hpre, hpost⟩
      · left
        refine ⟨heq, ?_⟩
        intro p hp v hv
        rcases List.mem_cons.mp hp with rfl | hp
        · rw [hfind] at hv; exact absurd hv (by simp)
        · exact hall p hp v hv
      · right
        refine ⟨(q0, md0) :: pre, q, md, post, t, by rw [hsplit]; rfl, heq, hf, hlt, ?_, hpost⟩
        intro p hp v hv
        rcases List.mem_cons.mp hp with rfl | hp
        · rw [hfind] at hv; exact absurd hv (by simp)
        · exact hpre p hp v hv
    | some v =>
      simp only [hfind]
      by_cases hbv : bt < v
      · rw [if_pos hbv]
        rcases ih (some q0) v with ⟨heq, hall⟩ |
          ⟨pre, q, md, post, t, hsplit, heq, hf, hlt, hpre, hpost⟩
        · right
          refine ⟨[], q0, md0, tl, v, by simp, heq, hfind, hbv, by simp, hall⟩
        · right
          refine ⟨(q0, md0) :: pre, q, md, post, t, by rw [hsplit]; rfl, heq, hf,
            lt_trans hbv hlt, ?_, hpost⟩
          intro p hp v' hv'
          rcases List.mem_cons.mp hp with rfl | hp
          · rw [hfind] at hv'
            injection hv' with hv'
            rw [← hv']
            exact hlt
          · exact hpre p hp v' hv'
      · rw [if_neg hbv]
        have hvle : v ≤ bt := le_of_not_lt hbv
        rcases ih bo bt with ⟨heq, hall⟩ |
          ⟨pre, q, md, post, t, hsplit, heq, hf, hlt, hpre, hpost⟩
        · left
          refine ⟨heq, ?_⟩
          intro p hp v' hv'
          rcases List.mem_cons.mp hp with rfl | hp
          · rw [hfind] at hv'
            injection hv' with hv'
            rw [← hv']
            exact hvle
          · exact hall p hp v' hv'
        · right
          refine ⟨(q0, md0) :: pre, q, md, post, t, by rw [hsplit]; rfl, heq, hf, hlt, ?_, hpost⟩
          intro p hp v' hv'
          rcases List.mem_cons.mp hp with rfl | hp
          · rw [hfind] at hv'
            injection hv' with hv'
            rw [← hv']
            exact lt_of_le_of_lt hvle hlt
          · exact hpre p hp v' hv'

theorem bestFor_spec (rs : List (ℚ × List (ℕ × ℚ))) (d : ℕ) :
    (bestFor rs d = (none, 0) ∧ ∀ p ∈ rs, ∀ v, alFind p.2 d = some v → v ≤ 0)
    ∨ (∃ r t, bestFor rs d = (some r, t) ∧ FirstMax rs d r t) := by
  rcases bestFor_go rs none 0 with ⟨heq, hall⟩ |
    ⟨pre, q, md, post, t, hsplit, heq, hf, hlt, hpre, hpost⟩
  · left; exact ⟨heq, hall⟩
  · right
    exact ⟨q, t, heq, pre, md, post, hsplit, hf, hlt, hpre, hpost⟩

/-! ### Existence and shape of the summary -/

theorem sumDepths_ok {rs : List (ℚ × List (ℕ × ℚ))} :
    ∀ ds : List ℕ,
      (∀ d ∈ ds, ∃ p ∈ rs, ∃ v, alFind p.2 d = some v ∧ 0 < v) →
      ∃ l, sumDepths rs ds = Except.ok l ∧ l.map (fun x => x.1) = ds ∧
        ∀ x ∈ l, FirstMax rs x.1 x.2.1 x.2.2 := by
  intro ds
  induction ds with
  | nil => intro _; exact ⟨[], rfl, rfl, by intro x hx; simp at hx⟩
  | cons d ds ih =>
    intro hpos
    obtain ⟨l', heq', hmap', hfm'⟩ := ih (fun x hx => hpos x (List.mem_cons_of_mem _ hx))
    rcases bestFor_spec rs d with ⟨heq0, hall⟩ | ⟨r, t, heq0, hfm⟩
    · obtain ⟨p, hp, v, hv, hvpos⟩ := hpos d (List.mem_cons_self _ _)
      exact absurd (hall p hp v hv) (by simpa using lt_of_lt_of_le hvpos (le_refl v))
    · refine ⟨(d, r, t) :: l', ?_, by simp [hmap'], ?_⟩
      · rw [sumDepths, heq0, heq']
      · intro x hx
        rcases List.mem_cons.mp hx with rfl | hx
        · exact hfm
        · exact hfm' x hx

/-! ### Matching the cores of the two patterns -/

theorem ws_not_digit {c : Char} (h : isWs c = true) : c.isDigit = false := by
  have h2 := ws_not_numCh h
  unfold isNumCh at h2
  exact (Bool.or_eq_false_iff.mp h2).1

theorem headFails_append_all {p q : Char → Bool} {a b : List Char} (hne : a ≠ [])
    (ha : ∀ c ∈ a, q c = true) (himp : ∀ c, q c = true → p c = false) :
    headFails p (a ++ b) = true := by
  cases a with
  | nil => exact absurd rfl hne
  | cons c t =>
    show (!(p c)) = true
    rw [himp c (ha c (List.mem_cons_self _ _))]
    rfl

theorem matchRatioAt_core {ws num post : List Char} (hw : ws ≠ [])
    (hwa : ∀ c ∈ ws, isWs c = true) (hn : num ≠ [])
    (hna : ∀ c ∈ num, isNumCh c = true) (hpost : headFails isNumCh post = true) :
    matchRatioAt (ratioCore ws num post) = some num := by
  have f1 : headFails isWs (num ++ post) = true :=
    headFails_append_all hn hna (fun c h => numCh_not_ws h)
  unfold ratioCore matchRatioAt
  simp only [dropLit_append, take1While_append hw hwa f1,
    take1While_append hn hna hpost]

theorem matchBenchAt_core
    {w ds ws1 t1 ws2 ws3 t2 ws4 ws5 its ws6 cap post : List Char} {u : Char}
    (hw : w ≠ []) (hwa : ∀ c ∈ w, isWordCh c = true)
    (hds : ds ≠ []) (hdsa : ∀ c ∈ ds, c.isDigit = true)
    (h1 : ws1 ≠ []) (h1a : ∀ c ∈ ws1, isWs c = true)
    (ht1 : t1 ≠ []) (ht1a : ∀ c ∈ t1, isNumCh c = true)
    (h2 : ws2 ≠ []) (h2a : ∀ c ∈ ws2, isWs c = true)
    (h3 : ws3 ≠ []) (h3a : ∀ c ∈ ws3, isWs c = true)
    (ht2 : t2 ≠ []) (ht2a : ∀ c ∈ t2, isNumCh c = true)
    (h4 : ws4 ≠ []) (h4a : ∀ c ∈ ws4, isWs c = true)
    (h5 : ws5 ≠ []) (h5a : ∀ c ∈ ws5, isWs c = true)
    (hits : its ≠ []) (hitsa : ∀ c ∈ its, c.isDigit = true)
    (h6 : ws6 ≠ []) (h6a : ∀ c ∈ ws6, isWs c = true)
    (hcap : cap ≠ []) (hcapa : ∀ c ∈ cap, isNumCh c = true)
    (hu : u = 'M' ∨ u = 'K') :
    matchBenchAt (benchCore w ds ws1 t1 ws2 ws3 t2 ws4 ws5 its ws6 cap u post) =
      some (BMatch.mk ("BM_".data ++ w) (digitsVal ds) cap u) := by
  have f1 : headFails isWordCh ("/".data ++ (ds ++ (ws1 ++ (t1 ++ (ws2 ++ ("ns".data ++ (ws3 ++ (t2 ++ (ws4 ++ ("ns".data ++ (ws5 ++ (its ++ (ws6 ++ ("items_per_second=".data ++ (cap ++ (u :: ("/s".data ++ post))))))))))))))))) = true := by
    show (!(isWordCh '/')) = true
    decide
  have f2 : headFails Char.isDigit (ws1 ++ (t1 ++ (ws2 ++ ("ns".data ++ (ws3 ++ (t2 ++ (ws4 ++ ("ns".data ++ (ws5 ++ (its ++ (ws6 ++ ("items_per_second=".data ++ (cap ++ (u :: ("/s".data ++ post))))))))))))))) = true :=
    headFails_append_all h1 h1a (fun c h => ws_not_digit h)
  have f3 : headFails isWs (t1 ++ (ws2 ++ ("ns".data ++ (ws3 ++ (t2 ++ (ws4 ++ ("ns".data ++ (ws5 ++ (its ++ (ws6 ++ ("items_per_second=".data ++ (cap ++ (u :: ("/s".data ++ post)))))))))))))) = true :=
    headFails_append_all ht1 ht1a (fun c h => numCh_not_ws h)
  have f4 : headFails isNumCh (ws2 ++ ("ns".data ++ (ws3 ++ (t2 ++ (ws4 ++ ("ns".data ++ (ws5 ++ (its ++ (ws6 ++ ("items_per_second=".data ++ (cap ++ (u :: ("/s".data ++ post))))))))))))) = true :=
    headFails_append_all h2 h2a (fun c h => ws_not_numCh h)
  have f5 : headFails isWs ("ns".data ++ (ws3 ++ (t2 ++ (ws4 ++ ("ns".data ++ (ws5 ++ (its ++ (ws6 ++ ("items_per_second=".data ++ (cap ++ (u :: ("/s".data ++ post)))))))))))) = true := by
    show (!(isWs 'n')) = true
    decide
  have f6 : headFails isWs (t2 ++ (ws4 ++ ("ns".data ++ (ws5 ++ (its ++ (ws6 ++ ("items_per_second=".data ++ (cap ++ (u :: ("/s".data ++ post)))))))))) = true :=
    headFails_append_all ht2 ht2a (fun c h => numCh_not_ws h)
  have f7 : headFails isNumCh (ws4 ++ ("ns".data ++ (ws5 ++ (its ++ (ws6 ++ ("items_per_second=".data ++ (cap ++ (u :: ("/s".data ++ post))))))))) = true :=
    headFails_append_all h4 h4a (fun c h => ws_not_numCh h)
  have f8 : headFails isWs ("ns".data ++ (ws5 ++ (its ++ (ws6 ++ ("items_per_second=".data ++ (cap ++ (u :: ("/s".data ++ post)))))))) = true := by
    show (!(isWs 'n')) = true
    decide
  have f9 : headFails isWs (its ++ (ws6 ++ ("items_per_second=".data ++ (cap ++ (u :: ("/s".data ++ post)))))) = true :=
    headFails_append_all hits hitsa (fun c h => digit_not_ws h)
  have f10 : headFails Char.isDigit (ws6 ++ ("items_per_second=".data ++ (cap ++ (u :: ("/s".data ++ post))))) = true :=
    headFails_append_all h6 h6a (fun c h => ws_not_digit h)
  have f11 : headFails isWs ("items_per_second=".data ++ (cap ++ (u :: ("/s".data ++ post)))) = true := by
    show (!(isWs 'i')) = true
    decide
  have f12 : headFails isNumCh (u :: ("/s".data ++ post)) = true := by
    rcases hu with rfl | rfl
    · show (!(isNumCh 'M')) = true
      decide
    · show (!(isNumCh 'K')) = true
      decide
  unfold benchCore matchBenchAt benchMid benchEnd
  simp only [dropLit_append, Option.some_bind,
    take1While_append hw hwa f1,
    take1While_append hds hdsa f2,
    skipRun_append h1 h1a f3,
    skipRun_append ht1 ht1a f4,
    skipRun_append h2 h2a f5,
    skipRun_append h3 h3a f6,
    skipRun_append ht2 ht2a f7,
    skipRun_append h4 h4a f8,
    skipRun_append h5 h5a f9,
    skipRun_append hits hitsa f10,
    skipRun_append h6 h6a f11,
    take1While_append hcap hcapa f12,
    eq_true hu, if_true, Option.map_some']

theorem searchRatio_core {pre ws num post : List Char}
    (hpre : ∀ i, i < pre.length →
      matchRatioAt (List.drop i (pre ++ ratioCore ws num post)) = none)
    (hw : ws ≠ []) (hwa : ∀ c ∈ ws, isWs c = true)
    (hn : num ≠ []) (hna : ∀ c ∈ num, isNumCh c = true)
    (hpost : headFails isNumCh post = true) :
    searchRatio (pre ++ ratioCore ws num post) = some num := by
  unfold searchRatio
  rw [searchWith_append matchRatioAt pre _ hpre]
  exact searchWith_of_match (matchRatioAt_core hw hwa hn hna hpost)

theorem searchBench_core
    {pre w ds ws1 t1 ws2 ws3 t2 ws4 ws5 its ws6 cap post : List Char} {u : Char}
    (hpre : ∀ i, i < pre.length →
      matchBenchAt (List.drop i
        (pre ++ benchCore w ds ws1 t1 ws2 ws3 t2 ws4 ws5 its ws6 cap u post)) = none)
    (hw : w ≠ []) (hwa : ∀ c ∈ w, isWordCh c = true)
    (hds : ds ≠ []) (hdsa : ∀ c ∈ ds, c.isDigit = true)
    (h1 : ws1 ≠ []) (h1a : ∀ c ∈ ws1, isWs c = true)
    (ht1 : t1 ≠ []) (ht1a : ∀ c ∈ t1, isNumCh c = true)
    (h2 : ws2 ≠ []) (h2a : ∀ c ∈ ws2, isWs c = true)
    (h3 : ws3 ≠ []) (h3a : ∀ c ∈ ws3, isWs c = true)
    (ht2 : t2 ≠ []) (ht2a : ∀ c ∈ t2, isNumCh c = true)
    (h4 : ws4 ≠ []) (h4a : ∀ c ∈ ws4, isWs c = true)
    (h5 : ws5 ≠ []) (h5a : ∀ c ∈ ws5, isWs c = true)
    (hits : its ≠ []) (hitsa : ∀ c ∈ its, c.isDigit = true)
    (h6 : ws6 ≠ []) (h6a : ∀ c ∈ ws6, isWs c = true)
    (hcap : cap ≠ []) (hcapa : ∀ c ∈ cap, isNumCh c = true)
    (hu : u = 'M' ∨ u = 'K') :
    searchBench (pre ++ benchCore w ds ws1 t1 ws2 ws3 t2 ws4 ws5 its ws6 cap u post) =
      some (BMatch.mk ("BM_".data ++ w) (digitsVal ds) cap u) := by
  unfold searchBench
  rw [searchWith_append matchBenchAt pre _ hpre]
  exact searchWith_of_match (matchBenchAt_core hw hwa hds hdsa h1 h1a ht1 ht1a h2 h2a
    h3 h3a ht2 ht2a h4 h4a h5 h5a hits hitsa h6 h6a hcap hcapa hu)

/-! ### Claim theorems -/

/-- C1: the claim says parsing never raises on numeric text that matches a
pattern's number field but fails to parse (e.g. `...`); in fact the
unprotected `float()` call raises `ValueError` on such a line, aborting the
parse, so the claim fails on the code. This theorem evaluates the parser at
the failing input. -/
theorem C1_malformed_ratio_number_raises :
    parseLines ["Testing Compaction Ratio: ...".data] = Except.error () := by rfl

/-- C2: the claim says a depth with no winning recorded throughput is
omitted from the summary and the reduction never fails; in fact a depth
whose only recorded throughput is `0` leaves `best_ratio = None`, and
formatting `None` with `:.2f` raises `TypeError`. This theorem evaluates
the pipeline at such an input: the summary errors instead of omitting the
depth. -/
theorem C2_zero_throughput_summary_raises :
    (parseLines ["Testing Compaction Ratio: 0.5".data,
      "BM_Test_Op/100   3 ns   3 ns   10 items_per_second=0M/s".data]).map
      (fun st => printSummary (consolidateTp st.tp)) = Except.ok (Except.error ()) := by
  rfl

/-- C4 counterexample: at a canonical model whose only entry for depth 200
has throughput 0, the claim as stated requires the summary to select ratio
1/2 with maximum 0 for depth 200; instead the reduction fails, so no triple
is produced for a present depth. -/
theorem C4_zero_max_not_selected :
    summaryFor [((1 : ℚ)/2, [(200, (0 : ℚ))])] = Except.error () ∧
    summaryFor [((1 : ℚ)/2, [(200, (0 : ℚ))])] ≠
      Except.ok [(200, (1 : ℚ)/2, (0 : ℚ))] := by
  constructor
  · rfl
  · intro h
    exact absurd ((rfl : summaryFor [((1 : ℚ)/2, [(200, (0 : ℚ))])] =
      Except.error ()).symm.trans h) (by decide)

/-- C10 counterexample: a line that contains the ratio-announcement pattern
followed by extra text (a trailing dot) does not update the ambient ratio
to the embedded number 0.5: the capture extends to `0.5.`, `float()`
raises, and processing the line errors. -/
theorem C10_trailing_text_breaks_announcement :
    processLine initState "Testing Compaction Ratio: 0.5.".data = Except.error () := by
  rfl

/-- C3: source-level consolidation suppression. For a well-formed
throughput model containing both `BM_AddOrder_No_Match` and
`BM_AddOrder_Latency` (and no literal `Add Order` raw key, which the
parser can never produce), every canonical `Add Order` throughput entry
equals the `BM_AddOrder_No_Match` entry at the same (ratio, depth), and no
`BM_AddOrder_Latency` key appears in the canonical model; when
`BM_AddOrder_No_Match` is absent, the `BM_AddOrder_Latency` entries pass
through unchanged under `Add Order`. -/
theorem C3_consolidation_suppression (tp : TpModel) (hwf : TpWF tp)
    (hclean : alFind tp cnAddOrder = none)
    (hlat : (alFind tp nmAddLat).isSome = true) :
    ((alFind tp nmNoMatch).isSome = true →
      (∀ r d, tpLookup (consolidateTp tp) cnAddOrder r d = tpLookup tp nmNoMatch r d)
      ∧ alFind (consolidateTp tp) nmAddLat = none)
    ∧ (alFind tp nmNoMatch = none →
      ∀ r d, tpLookup (consolidateTp tp) cnAddOrder r d = tpLookup tp nmAddLat r d) := by
  obtain ⟨hboth, hnone, hal⟩ := consolidateTp_AddOrder tp hwf hclean
  constructor
  · intro hsome
    obtain ⟨S, hS⟩ := Option.isSome_iff_exists.mp hsome
    exact ⟨hboth S hS, hal⟩
  · exact hnone

theorem C3_witness :
    tpLookup (consolidateTp [(nmAddLat, [(mkRat 1 2, [(100, (2 : ℚ))])]),
        (nmNoMatch, [(mkRat 1 2, [(100, (3 : ℚ))])])]) cnAddOrder (mkRat 1 2) 100 =
      tpLookup [(nmAddLat, [(mkRat 1 2, [(100, (2 : ℚ))])]),
        (nmNoMatch, [(mkRat 1 2, [(100, (3 : ℚ))])])] nmNoMatch (mkRat 1 2) 100 ∧
    tpLookup [(nmAddLat, [(mkRat 1 2, [(100, (2 : ℚ))])]),
        (nmNoMatch, [(mkRat 1 2, [(100, (3 : ℚ))])])] nmNoMatch (mkRat 1 2) 100 =
      some 3 := by
  constructor
  · exact ((C3_consolidation_suppression _ (by decide) (by decide) (by decide)).1
      (by decide)).1 (mkRat 1 2) 100
  · decide

/-- C4 (amended): for every canonical throughput model and every depth
present in it, provided some ratio records a positive throughput at that
depth (with only zero throughputs the reduction fails instead, see the
counterexample), the summary emits one triple per depth in ascending depth
order, whose ratio is the first one attaining the maximum recorded
throughput at that depth: all earlier ratios are strictly below it and no
later equal value replaces it. -/
theorem C4_summary_first_max (rs : List (ℚ × List (ℕ × ℚ)))
    (hpos : ∀ d ∈ allDepths rs, ∃ p ∈ rs, 0 < ((alFind p.2 d).getD 0)) :
    ∃ l, summaryFor rs = Except.ok l ∧ l.map (fun x => x.1) = allDepths rs ∧
      List.Sorted (· < ·) (allDepths rs) ∧
      ∀ x ∈ l, FirstMax rs x.1 x.2.1 x.2.2 := by
  have hpos' : ∀ d ∈ allDepths rs, ∃ p ∈ rs, ∃ v, alFind p.2 d = some v ∧ 0 < v := by
    intro d hd
    obtain ⟨p, hp, hv⟩ := hpos d hd
    cases hfind : alFind p.2 d with
    | none => rw [hfind] at hv; exact absurd hv (by simp)
    | some v =>
      rw [hfind] at hv
      exact ⟨p, hp, v, hfind, by simpa using hv⟩
  obtain ⟨l, h1, h2, h3⟩ := sumDepths_ok (allDepths rs) hpos'
  exact ⟨l, h1, h2, allDepths_sorted rs, h3⟩

theorem C4_witness :
    (∃ l, summaryFor [(mkRat 1 2, [(1000, mkRat 21 10)]), (mkRat 3 4, [(1000, mkRat 17 5)]),
        (mkRat 9 10, [(1000, (3 : ℚ))])] = Except.ok l ∧
      l.map (fun x => x.1) = allDepths [(mkRat 1 2, [(1000, mkRat 21 10)]),
        (mkRat 3 4, [(1000, mkRat 17 5)]), (mkRat 9 10, [(1000, (3 : ℚ))])] ∧
      List.Sorted (· < ·) (allDepths [(mkRat 1 2, [(1000, mkRat 21 10)]),
        (mkRat 3 4, [(1000, mkRat 17 5)]), (mkRat 9 10, [(1000, (3 : ℚ))])])) ∧
    summaryFor [(mkRat 1 2, [(1000, mkRat 21 10)]), (mkRat 3 4, [(1000, mkRat 17 5)]),
        (mkRat 9 10, [(1000, (3 : ℚ))])] = Except.ok [(1000, mkRat 3 4, mkRat 17 5)] := by
  constructor
  · obtain ⟨l, h1, h2, h3, _⟩ := C4_summary_first_max
      [(mkRat 1 2, [(1000, mkRat 21 10)]), (mkRat 3 4, [(1000, mkRat 17 5)]),
        (mkRat 9 10, [(1000, (3 : ℚ))])] (by decide)
    exact ⟨l, h1, h2, h3⟩
  · decide

/-- C7: no record is emitted before the first ratio announcement: any
prefix of lines none of which matches the announcement pattern contributes
nothing (the parse of `pre ++ rest` equals the parse of `rest` alone), and
a stream with no announcement line ends in the initial state with both
models empty. -/
theorem C7_no_records_before_announcement (pre rest : List (List Char))
    (h : ∀ l ∈ pre, searchRatio l = none) :
    parseLines (pre ++ rest) = parseLines rest ∧
    parseLines pre = Except.ok initState := by
  refine ⟨runLines_skip_noratio pre rest h, ?_⟩
  have h2 := runLines_skip_noratio pre [] h
  rw [List.append_nil] at h2
  exact h2

theorem C7_witness :
    parseLines (["BM_Test_Op/100   3 ns   3 ns   10 items_per_second=5M/s".data,
        "random noise".data] ++ ["Testing Compaction Ratio: 2".data]) =
      parseLines ["Testing Compaction Ratio: 2".data] ∧
    parseLines ["BM_Test_Op/100   3 ns   3 ns   10 items_per_second=5M/s".data,
        "random noise".data] = Except.ok initState :=
  C7_no_records_before_announcement
    ["BM_Test_Op/100   3 ns   3 ns   10 items_per_second=5M/s".data,
      "random noise".data]
    ["Testing Compaction Ratio: 2".data] (by decide)

/-- C8: every (raw_name, ratio, depth) key of the latency model produced by
a successful parse is also a key of the throughput model: percentile
fields are only attached on lines whose throughput pattern matched, and
the throughput entry is written first. -/
theorem C8_latency_key_has_throughput {lines : List (List Char)} {st : PState}
    (h : parseLines lines = Except.ok st) {n : List Char} {r : ℚ} {d : ℕ}
    {lbl : List Char} {v : ℚ} (hv : latLookup st.lat n r d lbl = some v) :
    ∃ w, tpLookup st.tp n r d = some w :=
  runLines_latSubTp lines initState st h initState_latSubTp n r d lbl v hv

theorem C8_witness :
    ∃ st, parseLines ["Testing Compaction Ratio: 2".data,
      "BM_AddOrder_Latency/1000   400 ns   400 ns   100 items_per_second=450K/s p50=120 p99=12.5k p999=80".data]
        = Except.ok st ∧
      latLookup st.lat "BM_AddOrder_Latency".data 2 1000 "p50".data = some 120 ∧
      ∃ w, tpLookup st.tp "BM_AddOrder_Latency".data 2 1000 = some w := by
  rcases hcomp : parseLines ["Testing Compaction Ratio: 2".data,
    "BM_AddOrder_Latency/1000   400 ns   400 ns   100 items_per_second=450K/s p50=120 p99=12.5k p999=80".data]
    with e | st
  · cases e
    exact absurd hcomp (by decide)
  · have hst : st = ((parseLines ["Testing Compaction Ratio: 2".data,
        "BM_AddOrder_Latency/1000   400 ns   400 ns   100 items_per_second=450K/s p50=120 p99=12.5k p999=80".data]).toOption.getD
          initState) := by
      rw [hcomp]
      rfl
    have hlat : latLookup st.lat "BM_AddOrder_Latency".data 2 1000 "p50".data =
        some 120 := by
      rw [hst]
      decide
    exact ⟨st, rfl, hlat, C8_latency_key_has_throughput hcomp hlat⟩

/-- C9: every throughput value and every latency-percentile value stored in
the parsed (aggregated) models and in the consolidated models is
non-negative: the numeric fields are matched from digits and dots only and
normalization multiplies or divides by 1000. -/
theorem C9_all_values_nonneg {lines : List (List Char)} {st : PState}
    (h : parseLines lines = Except.ok st) :
    TpNonneg st.tp ∧ LatNonneg st.lat ∧ TpNonneg (consolidateTp st.tp) ∧
      LatNonneg (consolidateLat st.lat) := by
  obtain ⟨h1, h2⟩ := runLines_nonneg lines initState st h
    (by intro p hp; exact absurd hp (List.not_mem_nil p))
    (by intro p hp; exact absurd hp (List.not_mem_nil p))
  exact ⟨h1, h2, consolidateTp_nonneg h1, consolidateLat_nonneg h2⟩

theorem C9_witness :
    ∃ st, parseLines ["Testing Compaction Ratio: 2".data,
      "BM_AddOrder_No_Match/1000   337 ns   337 ns   2202227 items_per_second=2.97052M/s".data]
        = Except.ok st ∧
      TpNonneg st.tp ∧ TpNonneg (consolidateTp st.tp) := by
  rcases hcomp : parseLines ["Testing Compaction Ratio: 2".data,
    "BM_AddOrder_No_Match/1000   337 ns   337 ns   2202227 items_per_second=2.97052M/s".data]
    with e | st
  · cases e
    exact absurd hcomp (by decide)
  · obtain ⟨h1, _, h3, _⟩ := C9_all_values_nonneg hcomp
    exact ⟨st, rfl, h1, h3⟩

/-- C5: unit normalization at parse time. On a successfully processed line
whose benchmark-result pattern matched, the stored throughput is the parsed
number divided by 1000 for a `K` suffix and unchanged for `M`; each stored
percentile is the parsed number times 1000 when the `k` suffix is present
and unchanged otherwise. -/
theorem C5_unit_normalization {st : PState} {line : List Char} {r : ℚ} {b : BMatch}
    {st' : PState} {q : ℚ}
    (hrho : st.currentRatio = some r) (hr : searchRatio line = none)
    (hb : searchBench line = some b) (hq : parseFloat b.tpCap = some q)
    (hok : processLine st line = Except.ok st') :
    tpLookup st'.tp b.name r b.depth = some (if b.unit = 'K' then q / 1000 else q)
    ∧ ∀ lbl ∈ pctLabels, ∀ cap hk, searchPct lbl line = some (cap, hk) →
        ∃ w, parseFloat cap = some w ∧
          latLookup st'.lat b.name r b.depth lbl = some (if hk then w * 1000 else w) := by
  obtain ⟨q', hq', hcr, htp, hfold⟩ := processLine_bench_ok hrho hr hb hok
  rw [hq] at hq'
  injection hq' with he
  subst he
  constructor
  · rw [htp, tpLookup_tpInsert]
    simp
  · intro lbl hm cap hk hsp
    obtain ⟨_, h2⟩ := pctFold_lookup pctLabels st.lat st'.lat hfold (by decide)
    exact h2 lbl hm cap hk hsp

theorem C5_witness :
    ∃ st', processLine (⟨some 2, [], []⟩ : PState)
        "BM_AddOrder_Latency/1000   400 ns   400 ns   100 items_per_second=450K/s p50=120 p99=12.5k p999=80".data
        = Except.ok st' ∧
      tpLookup st'.tp "BM_AddOrder_Latency".data 2 1000 =
        some (if ('K' : Char) = 'K' then (450 : ℚ) / 1000 else 450) ∧
      ∃ w, parseFloat "12.5".data = some w ∧
        latLookup st'.lat "BM_AddOrder_Latency".data 2 1000 "p99".data =
          some (if (true : Bool) then w * 1000 else w) := by
  rcases hcomp : processLine (⟨some 2, [], []⟩ : PState)
      "BM_AddOrder_Latency/1000   400 ns   400 ns   100 items_per_second=450K/s p50=120 p99=12.5k p999=80".data
    with e | st'
  · cases e
    exact absurd hcomp (by decide)
  · obtain ⟨h1, h2⟩ := @C5_unit_normalization ⟨some 2, [], []⟩
      "BM_AddOrder_Latency/1000   400 ns   400 ns   100 items_per_second=450K/s p50=120 p99=12.5k p999=80".data
      2 ⟨"BM_AddOrder_Latency".data, 1000, "450".data, 'K'⟩ st' 450
      rfl (by decide) (by decide) (by decide) hcomp
    exact ⟨st', rfl, h1, h2 "p99".data (by decide) "12.5".data true (by decide)⟩

/-- C6: last-write-wins aggregation. If two successfully processed
benchmark-result lines carry the same raw name and depth under the same
ambient ratio, the aggregated throughput for that key is the second line's
(normalized) value, and each percentile key matched on the second line
likewise holds the second line's value. -/
theorem C6_last_write_wins {st st1 st2 : PState} {l1 l2 : List Char} {r : ℚ}
    {b1 b2 : BMatch} {q2 : ℚ}
    (hrho : st.currentRatio = some r)
    (h1r : searchRatio l1 = none) (h2r : searchRatio l2 = none)
    (h1b : searchBench l1 = some b1) (h2b : searchBench l2 = some b2)
    (hname : b2.name = b1.name) (hdep : b2.depth = b1.depth)
    (hq2 : parseFloat b2.tpCap = some q2)
    (hs1 : processLine st l1 = Except.ok st1) (hs2 : processLine st1 l2 = Except.ok st2) :
    tpLookup st2.tp b1.name r b1.depth = some (if b2.unit = 'K' then q2 / 1000 else q2)
    ∧ ∀ lbl ∈ pctLabels, ∀ cap hk, searchPct lbl l2 = some (cap, hk) →
        ∃ w, parseFloat cap = some w ∧
          latLookup st2.lat b1.name r b1.depth lbl = some (if hk then w * 1000 else w) := by
  obtain ⟨q1', hq1', hcr1, htp1, hfold1⟩ := processLine_bench_ok hrho h1r h1b hs1
  obtain ⟨q2', hq2', hcr2, htp2, hfold2⟩ := processLine_bench_ok hcr1 h2r h2b hs2
  rw [hq2] at hq2'
  injection hq2' with he
  subst he
  constructor
  · rw [← hname, ← hdep, htp2, tpLookup_tpInsert]
    simp
  · intro lbl hm cap hk hsp
    obtain ⟨_, h2⟩ := pctFold_lookup pctLabels st1.lat st2.lat hfold2 (by decide)
    rw [← hname, ← hdep]
    exact h2 lbl hm cap hk hsp

theorem C6_witness :
    ∃ st1 st2,
      processLine (⟨some 2, [], []⟩ : PState)
        "BM_Test_Op/50   1 ns   1 ns   5 items_per_second=1M/s".data = Except.ok st1 ∧
      processLine st1
        "BM_Test_Op/50   1 ns   1 ns   5 items_per_second=3M/s p50=7".data = Except.ok st2 ∧
      tpLookup st2.tp "BM_Test_Op".data 2 50 =
        some (if ('M' : Char) = 'K' then (3 : ℚ) / 1000 else 3) ∧
      ((if ('M' : Char) = 'K' then (3 : ℚ) / 1000 else 3) = 3) ∧
      ∃ w, parseFloat "7".data = some w ∧
        latLookup st2.lat "BM_Test_Op".data 2 50 "p50".data =
          some (if (false : Bool) then w * 1000 else w) := by
  rcases hcomp1 : processLine (⟨some 2, [], []⟩ : PState)
      "BM_Test_Op/50   1 ns   1 ns   5 items_per_second=1M/s".data with e | st1
  · cases e
    exact absurd hcomp1 (by decide)
  · have hst1 : st1 = ((processLine (⟨some 2, [], []⟩ : PState)
        "BM_Test_Op/50   1 ns   1 ns   5 items_per_second=1M/s".data).toOption.getD
          initState) := by
      rw [hcomp1]
      rfl
    rcases hcomp2 : processLine st1
        "BM_Test_Op/50   1 ns   1 ns   5 items_per_second=3M/s p50=7".data with e | st2
    · cases e
      rw [hst1] at hcomp2
      exact absurd hcomp2 (by decide)
    · obtain ⟨g1, g2⟩ := @C6_last_write_wins ⟨some 2, [], []⟩ st1 st2
        "BM_Test_Op/50   1 ns   1 ns   5 items_per_second=1M/s".data
        "BM_Test_Op/50   1 ns   1 ns   5 items_per_second=3M/s p50=7".data
        2 ⟨"BM_Test_Op".data, 50, "1".data, 'M'⟩ ⟨"BM_Test_Op".data, 50, "3".data, 'M'⟩ 3
        rfl (by decide) (by decide) (by decide) (by decide) rfl rfl (by decide)
        hcomp1 hcomp2
      exact ⟨st1, st2, rfl, hcomp2, g1, by decide,
        g2 "p50".data (by decide) "7".data false (by decide)⟩

/-- C10 (amended): recognition is substring-based. (1) A line made of any
prefix with no announcement-pattern match at any of its positions,
followed by the announcement pattern whose number run is not extended by
the following text (which must not start with a digit or dot), updates the
ambient ratio to the embedded number and emits no record; a trailing digit
or dot instead extends the capture (see the counterexample). (2) A
benchmark-result pattern embedded anywhere in a line (no announcement
match on the line, no earlier benchmark match, parseable captures)
produces a throughput record from the embedded fields. (3) A line on which
the announcement pattern matches is treated as an announcement only:
models are untouched even if a benchmark pattern is also present. -/
theorem C10_substring_recognition :
    (∀ (pre ws num post : List Char) (st : PState) (q : ℚ),
      (∀ i, i < pre.length →
        matchRatioAt (List.drop i (pre ++ ratioCore ws num post)) = none) →
      ws ≠ [] → (∀ c ∈ ws, isWs c = true) →
      num ≠ [] → (∀ c ∈ num, isNumCh c = true) →
      headFails isNumCh post = true →
      parseFloat num = some q →
      processLine st (pre ++ ratioCore ws num post) = Except.ok ⟨some q, st.tp, st.lat⟩)
    ∧ (∀ (pre w ds ws1 t1 ws2 ws3 t2 ws4 ws5 its ws6 cap post : List Char) (u : Char)
        (st : PState) (r q : ℚ),
      st.currentRatio = some r →
      searchRatio (pre ++ benchCore w ds ws1 t1 ws2 ws3 t2 ws4 ws5 its ws6 cap u post)
        = none →
      (∀ i, i < pre.length →
        matchBenchAt (List.drop i
          (pre ++ benchCore w ds ws1 t1 ws2 ws3 t2 ws4 ws5 its ws6 cap u post)) = none) →
      w ≠ [] → (∀ c ∈ w, isWordCh c = true) →
      ds ≠ [] → (∀ c ∈ ds, c.isDigit = true) →
      ws1 ≠ [] → (∀ c ∈ ws1, isWs c = true) →
      t1 ≠ [] → (∀ c ∈ t1, isNumCh c = true) →
      ws2 ≠ [] → (∀ c ∈ ws2, isWs c = true) →
      ws3 ≠ [] → (∀ c ∈ ws3, isWs c = true) →
      t2 ≠ [] → (∀ c ∈ t2, isNumCh c = true) →
      ws4 ≠ [] → (∀ c ∈ ws4, isWs c = true) →
      ws5 ≠ [] → (∀ c ∈ ws5, isWs c = true) →
      its ≠ [] → (∀ c ∈ its, c.isDigit = true) →
      ws6 ≠ [] → (∀ c ∈ ws6, isWs c = true) →
      cap ≠ [] → (∀ c ∈ cap, isNumCh c = true) →
      (u = 'M' ∨ u = 'K') →
      parseFloat cap = some q →
      (∀ lbl ∈ pctLabels,
        pctOK (pre ++ benchCore w ds ws1 t1 ws2 ws3 t2 ws4 ws5 its ws6 cap u post) lbl) →
      ∃ st', processLine st (pre ++ benchCore w ds ws1 t1 ws2 ws3 t2 ws4 ws5 its ws6 cap u post)
          = Except.ok st' ∧
        tpLookup st'.tp ("BM_".data ++ w) r (digitsVal ds) =
          some (if u = 'K' then q / 1000 else q))
    ∧ (∀ (st : PState) (line cap : List Char) (q : ℚ),
        searchRatio line = some cap → parseFloat cap = some q →
        processLine st line = Except.ok ⟨some q, st.tp, st.lat⟩) := by
  refine ⟨?_, ?_, ?_⟩
  · intro pre ws num post st q hpre hw hwa hn hna hpost hq
    exact processLine_ratio (searchRatio_core hpre hw hwa hn hna hpost) hq
  · intro pre w ds ws1 t1 ws2 ws3 t2 ws4 ws5 its ws6 cap post u st r q
      hrho hr hpre hw hwa hds hdsa h1 h1a ht1 ht1a h2 h2a h3 h3a ht2 ht2a h4 h4a
      h5 h5a hits hitsa h6 h6a hcap hcapa hu hq hp
    have hb := searchBench_core hpre hw hwa hds hdsa h1 h1a ht1 ht1a h2 h2a h3 h3a
      ht2 ht2a h4 h4a h5 h5a hits hitsa h6 h6a hcap hcapa hu
    obtain ⟨st', hok⟩ := processLine_bench_mk hrho hr hb hq hp
    obtain ⟨q', hq', hcr, htp, _⟩ := processLine_bench_ok hrho hr hb hok
    rw [hq] at hq'
    injection hq' with he
    subst he
    refine ⟨st', hok, ?_⟩
    rw [htp, tpLookup_tpInsert]
    simp
  · intro st line cap q hs hq
    exact processLine_ratio hs hq

theorem C10_witness :
    processLine initState ("x! ".data ++ ratioCore " ".data "2".data " y".data) =
      Except.ok ⟨some 2, initState.tp, initState.lat⟩ :=
  C10_substring_recognition.1 "x! ".data " ".data "2".data " y".data initState 2
    (by decide) (by decide) (by decide) (by decide) (by decide) (by decide) (by decide)

end CompactionStudy
